import Mathlib

/-!
Verification of the `ss` simple-string C library (src/ss.c) against its
natural-language specification.  The definitions below are a shallow
embedding of the C source: machine integers are modelled as `Nat` with
explicit `% 2 ^ 64` (size_t) or `% 2 ^ 32` (uint32_t) reductions at the
points where the C arithmetic can wrap, buffers are modelled as lists of
byte values, and every loop is translated structurally (fuel-based
recursion mirroring the C loop body, with enough fuel that the fuel case
is never reached on the traces the C performs).

Modelling conventions, stated once here:
* A buffer (`Buf`) carries the hidden-header fields `cap`, `len`, `typ`
  and the physical byte region `data`, whose length is `cap + 1`
  (capacity bytes plus the sentinel slot), exactly the region the C
  allocation owns.
* Reads through `List.getD _ _ 0` of an index outside `data` model reads
  outside the allocation; they return 0, which terminates the scanning
  loops the same way a zero byte inside the allocation would.
* Writes outside the allocation are dropped (a `List.set` or splice past
  the end is a no-op); the real C would corrupt memory there.
* Bytes exposed by a growing reallocation are uninitialised in C; they
  are filled with an explicit `junk` parameter so that no theorem can
  silently depend on their value.
-/

namespace SS

/-- 2 ^ 64, the modulus of `size_t` arithmetic. -/
def sizeMod : Nat := 2 ^ 64

/-- `NPOS`, i.e. `(size_t)-1`. -/
def npos : Nat := 2 ^ 64 - 1

/-- `UINT_MAX` for the 32-bit `unsigned int` of the target platform. -/
def uintMax : Nat := 2 ^ 32 - 1

/-- `sizeof(_sstring_t)`: two `size_t` fields plus a packed `uint32_t`. -/
def headerSize : Nat := 20

/-- `_ss_cap_max()`: `(size_t)UINT_MAX - 2 - sizeof(_sstring_t)`. -/
def capMax : Nat := uintMax - 2 - headerSize

/-- `_ss_valid_cap(cap)`. -/
def validCap (cap : Nat) : Bool := cap ≤ capMax

/-- `SS_MAX_REALLOC`, the 1 MiB growth clamp from ss_util.h. -/
def maxRealloc : Nat := 0x100000

/-! ## Bit utilities (`_ss_pop32`, `_ss_clz32_impl`, `_ss_msb32_impl`) -/

/-- `_ss_pop32`: 32-bit population count.  The final multiply wraps in
`uint32_t`, hence the explicit `% 2 ^ 32`. -/
def pop32 (n : Nat) : Nat :=
  let n1 := n - ((n >>> 1) &&& 0x55555555)
  let n2 := (n1 &&& 0x33333333) + ((n1 >>> 2) &&& 0x33333333)
  ((((n2 + (n2 >>> 4)) &&& 0x0F0F0F0F) * 0x01010101) % 2 ^ 32) >>> 24

/-- The or-shift smear cascade shared by `_ss_clz32_impl` and
`_ss_msb32_impl`: sets every bit below the most significant set bit. -/
def smear32 (n : Nat) : Nat :=
  let a := n ||| (n >>> 1)
  let b := a ||| (a >>> 2)
  let c := b ||| (b >>> 4)
  let d := c ||| (c >>> 8)
  d ||| (d >>> 16)

/-- `_ss_clz32_impl`: count of leading zeros of a 32-bit value; the
portable branch computes the popcount of the complemented smear. -/
def clz32 (n : Nat) : Nat := pop32 (0xFFFFFFFF ^^^ smear32 n)

/-- The de Bruijn table of `_ss_msb32_impl`. -/
def msb32map : List Nat :=
  [0, 9, 1, 10, 13, 21, 2, 29, 11, 14, 16, 18, 22, 25, 3, 30,
   8, 12, 20, 28, 15, 17, 24, 7, 19, 27, 23, 6, 26, 5, 4, 31]

/-- `_ss_msb32_impl`: index (1-based) of the most significant set bit,
0 for input 0, via de Bruijn multiplication (wrapping in `uint32_t`). -/
def msb32 (c : Nat) : Nat :=
  if c = 0 then 0
  else msb32map.getD (((smear32 c * 0x07C4ACDD) % 2 ^ 32) >>> 27) 0 + 1

/-- A smear stage of width `w` covers window `w`: bit `i` of the stage
value is set exactly when some bit of `n` in `[i, i + w)` is set. -/
def covers (s n w : Nat) : Prop :=
  ∀ i, s.testBit i = true ↔ ∃ d, d < w ∧ n.testBit (i + d) = true

theorem covers_one (n : Nat) : covers n n 1 := by
  intro i
  constructor
  · intro h
    exact ⟨0, Nat.zero_lt_one, by simpa using h⟩
  · rintro ⟨d, hd, h⟩
    interval_cases d
    simpa using h

theorem covers_step {s n w : Nat} (h : covers s n w) :
    covers (s ||| (s >>> w)) n (2 * w) := by
  intro i
  rw [Nat.testBit_or, Nat.testBit_shiftRight]
  constructor
  · intro hor
    rcases Bool.or_eq_true_iff.mp hor with h1 | h1
    · obtain ⟨d, hd, hbit⟩ := (h i).mp h1
      exact ⟨d, by omega, hbit⟩
    · obtain ⟨d, hd, hbit⟩ := (h (w + i)).mp h1
      exact ⟨w + d, by omega, by rwa [show i + (w + d) = w + i + d by omega]⟩
  · rintro ⟨d, hd, hbit⟩
    apply Bool.or_eq_true_iff.mpr
    by_cases hdw : d < w
    · exact Or.inl ((h i).mpr ⟨d, hdw, hbit⟩)
    · refine Or.inr ((h (w + i)).mpr ⟨d - w, by omega, ?_⟩)
      rwa [show w + i + (d - w) = i + d by omega]

theorem covers_smear32 (n : Nat) : covers (smear32 n) n 32 := by
  have h32 := covers_step (covers_step (covers_step (covers_step
    (covers_step (covers_one n)))))
  norm_num at h32
  simpa [smear32] using h32

/-- If `n` has bit length `k + 1` (and fits in 32 bits), the smear
cascade produces the all-ones value `2 ^ (k + 1) - 1`. -/
theorem smear32_eq {n k : Nat} (hk : k < 32) (hlo : 2 ^ k ≤ n)
    (hhi : n < 2 ^ (k + 1)) : smear32 n = 2 ^ (k + 1) - 1 := by
  have htop : n.testBit k = true := by
    rw [Nat.testBit_to_div_mod]
    have hdiv : n / 2 ^ k = 1 := by
      apply Nat.div_eq_of_lt_le
      · simpa using hlo
      · have : (1 + 1) * 2 ^ k = 2 ^ (k + 1) := by ring
        omega
    simp [hdiv]
  apply Nat.eq_of_testBit_eq
  intro i
  rw [Nat.testBit_two_pow_sub_one]
  by_cases hik : i < k + 1
  · simp only [hik, decide_eq_true_eq]
    exact (covers_smear32 n i).mpr
      ⟨k - i, by omega, by rwa [show i + (k - i) = k by omega]⟩
  · simp only [hik]
    by_contra hne
    have htrue : (smear32 n).testBit i = true := by
      cases h : (smear32 n).testBit i
      · exact absurd h hne
      · rfl
    obtain ⟨d, _, hbit⟩ := (covers_smear32 n i).mp htrue
    have hlt : n < 2 ^ (i + d) :=
      lt_of_lt_of_le hhi (Nat.pow_le_pow_right (by norm_num) (by omega))
    rw [Nat.testBit_eq_false_of_lt hlt] at hbit
    exact Bool.false_ne_true hbit

/-- The de Bruijn hash table is correct on every all-ones input. -/
theorem msb32_table : ∀ k, k < 32 →
    msb32map.getD ((((2 ^ (k + 1) - 1) * 0x07C4ACDD) % 2 ^ 32) >>> 27) 0 + 1
      = k + 1 := by decide

/-- `_ss_msb32_impl` returns the 1-based index of the top set bit. -/
theorem msb32_eq {n k : Nat} (hk : k < 32) (hlo : 2 ^ k ≤ n)
    (hhi : n < 2 ^ (k + 1)) : msb32 n = k + 1 := by
  have h1 : (1 : Nat) ≤ 2 ^ k := Nat.one_le_two_pow
  unfold msb32
  rw [if_neg (by omega), smear32_eq hk hlo hhi]
  exact msb32_table k hk

/-- The popcount of a complemented all-ones value. -/
theorem clz_table : ∀ k, k < 32 →
    pop32 (0xFFFFFFFF ^^^ (2 ^ (k + 1) - 1)) = 31 - k := by decide

/-- `_ss_clz32_impl` counts leading zeros of a 32-bit value. -/
theorem clz32_eq {n k : Nat} (hk : k < 32) (hlo : 2 ^ k ≤ n)
    (hhi : n < 2 ^ (k + 1)) : clz32 n = 31 - k := by
  unfold clz32
  rw [smear32_eq hk hlo hhi]
  exact clz_table k hk

/-- `ssu_isvalid`: valid Unicode code point (no surrogates, ≤ 0x10FFFF). -/
def ssu_isvalid (c : Nat) : Bool :=
  c < 0xD800 || (0xDFFF < c && c ≤ 0x10FFFF)

/-- `_ss_utf8len`: bytes needed to encode a valid code point. -/
def utf8len (c : Nat) : Nat :=
  if c < 128 then 1 else (msb32 c + 3) / 5

/-- `ssu8_cpseqlen`. -/
def ssu8_cpseqlen (c : Nat) : Nat :=
  if ssu_isvalid c then utf8len c else 0

/-- The continuation bytes written by the do-while loop of
`_ss_unicodetoutf8`: `k` bytes, most significant 6-bit group first. -/
def contBytes (c : Nat) : Nat → List Nat
  | 0 => []
  | k + 1 => contBytes (c >>> 6) k ++ [(c &&& 0x3F) ||| 0x80]

/-- `_ss_unicodetoutf8` / `ssu8_cptoseq`: returns the byte count (0 for
an invalid code point) and the bytes written. -/
def ssu8_cptoseq (c : Nat) : Nat × List Nat :=
  if c < 128 then (1, [c])
  else if !ssu_isvalid c then (0, [])
  else
    let len := utf8len c
    let head := (0xFF ^^^ ((1 <<< (8 - len)) - 1)) ||| (c >>> (6 * (len - 1)))
    (len, head :: contBytes c (len - 1))

/-- `_ss_seqlen` / `ssu8_seqlen`: expected sequence length from the lead
byte; 0 for continuation bytes and lead patterns above `0xF7`. -/
def ssu8_seqlen (b : Nat) : Nat :=
  if b < 0x80 then 1
  else if 0xF7 < b || (b &&& 0xC0) == 0x80 then 0
  else clz32 (0xFF ^^^ b) - 24

/-- `ssu8_seqtocp`: decode a UTF-8 sequence.  Returns the consumed byte
count (0 on failure) and the code point written through `cpout` (`none`
when the C leaves `*cpout` unwritten).  The continuation-byte rejection
tests are combined with `&&` exactly as in the C source. -/
def ssu8_seqtocp (seq : List Nat) : Nat × Option Nat :=
  let s := fun i => seq.getD i 0
  match ssu8_seqlen (s 0) with
  | 1 => (1, some (s 0))
  | 2 =>
    if (s 1 &&& 0xC0) ≠ 0x80 then (0, none)
    else (2, some ((((s 0) &&& 0x1F) <<< 6) ||| ((s 1) &&& 0x3F)))
  | 3 =>
    if (s 1 &&& 0xC0) ≠ 0x80 ∧ (s 2 &&& 0xC0) ≠ 0x80 then (0, none)
    else (3, some ((((s 0) &&& 0x0F) <<< 12) |||
                   (((s 1) &&& 0x3F) <<< 6) ||| ((s 2) &&& 0x3F)))
  | 4 =>
    if (s 1 &&& 0xC0) ≠ 0x80 ∧ (s 2 &&& 0xC0) ≠ 0x80 ∧ (s 3 &&& 0xC0) ≠ 0x80 then
      (0, none)
    else (4, some ((((s 0) &&& 0x07) <<< 18) ||| (((s 1) &&& 0x3F) <<< 12) |||
                   (((s 2) &&& 0x3F) <<< 6) ||| ((s 3) &&& 0x3F)))
  | _ => (0, none)

/-! ## Correctness of the codec on valid code points (claim C4) -/

theorem utf8len_two {c : Nat} (h1 : 0x80 ≤ c) (h2 : c < 0x800) :
    utf8len c = 2 := by
  have hlo : 2 ^ c.log2 ≤ c := Nat.log2_self_le (by omega)
  have hhi : c < 2 ^ (c.log2 + 1) := Nat.lt_log2_self
  have hk7 : 7 ≤ c.log2 := by
    by_contra h
    have hle : 2 ^ (c.log2 + 1) ≤ 2 ^ 7 :=
      Nat.pow_le_pow_right (by norm_num) (by omega)
    have : (2 : Nat) ^ 7 = 128 := by norm_num
    omega
  have hk10 : c.log2 ≤ 10 := by
    by_contra h
    have hle : 2 ^ 11 ≤ 2 ^ c.log2 :=
      Nat.pow_le_pow_right (by norm_num) (by omega)
    have : (2 : Nat) ^ 11 = 2048 := by norm_num
    omega
  have hmsb : msb32 c = c.log2 + 1 := msb32_eq (by omega) hlo hhi
  unfold utf8len
  rw [if_neg (by omega), hmsb]
  omega

theorem utf8len_three {c : Nat} (h1 : 0x800 ≤ c) (h2 : c < 0x10000) :
    utf8len c = 3 := by
  have hlo : 2 ^ c.log2 ≤ c := Nat.log2_self_le (by omega)
  have hhi : c < 2 ^ (c.log2 + 1) := Nat.lt_log2_self
  have hk11 : 11 ≤ c.log2 := by
    by_contra h
    have hle : 2 ^ (c.log2 + 1) ≤ 2 ^ 11 :=
      Nat.pow_le_pow_right (by norm_num) (by omega)
    have : (2 : Nat) ^ 11 = 2048 := by norm_num
    omega
  have hk15 : c.log2 ≤ 15 := by
    by_contra h
    have hle : 2 ^ 16 ≤ 2 ^ c.log2 :=
      Nat.pow_le_pow_right (by norm_num) (by omega)
    have : (2 : Nat) ^ 16 = 65536 := by norm_num
    omega
  have hmsb : msb32 c = c.log2 + 1 := msb32_eq (by omega) hlo hhi
  unfold utf8len
  rw [if_neg (by omega), hmsb]
  omega

theorem utf8len_four {c : Nat} (h1 : 0x10000 ≤ c) (h2 : c ≤ 0x10FFFF) :
    utf8len c = 4 := by
  have hlo : 2 ^ c.log2 ≤ c := Nat.log2_self_le (by omega)
  have hhi : c < 2 ^ (c.log2 + 1) := Nat.lt_log2_self
  have hk16 : 16 ≤ c.log2 := by
    by_contra h
    have hle : 2 ^ (c.log2 + 1) ≤ 2 ^ 16 :=
      Nat.pow_le_pow_right (by norm_num) (by omega)
    have : (2 : Nat) ^ 16 = 65536 := by norm_num
    omega
  have hk20 : c.log2 ≤ 20 := by
    by_contra h
    have hle : 2 ^ 21 ≤ 2 ^ c.log2 :=
      Nat.pow_le_pow_right (by norm_num) (by omega)
    have : (2 : Nat) ^ 21 = 2097152 := by norm_num
    omega
  have hmsb : msb32 c = c.log2 + 1 := msb32_eq (by omega) hlo hhi
  unfold utf8len
  rw [if_neg (by omega), hmsb]
  omega

/-- Disjoint-or is addition: a shifted value or-ed with a small value. -/
theorem lor_disjoint_add (a b k : Nat) (hb : b < 2 ^ k) :
    (a <<< k) ||| b = 2 ^ k * a + b := by
  apply Nat.eq_of_testBit_eq
  intro j
  rw [Nat.testBit_or, Nat.testBit_shiftLeft, Nat.testBit_mul_pow_two_add a hb]
  by_cases hj : j < k
  · simp [hj, Nat.not_le.mpr hj, Nat.testBit_eq_false_of_lt]
  · have hb' : b.testBit j = false :=
      Nat.testBit_eq_false_of_lt (lt_of_lt_of_le hb
        (Nat.pow_le_pow_right (by norm_num) (by omega)))
    simp [hj, Nat.le_of_not_lt hj, hb', ge_iff_le]

/-- Splitting a number at bit `k` and or-ing the parts is the identity. -/
theorem recompose (c k : Nat) :
    ((c >>> k) <<< k) ||| (c &&& (2 ^ k - 1)) = c := by
  rw [Nat.and_pow_two_sub_one_eq_mod,
    lor_disjoint_add _ _ _ (Nat.mod_lt _ (by positivity)),
    Nat.shiftRight_eq_div_pow]
  exact Nat.div_add_mod c (2 ^ k)

/-- Left shift distributes over bitwise or. -/
theorem shiftLeft_lor (a b k : Nat) :
    (a ||| b) <<< k = (a <<< k) ||| (b <<< k) := by
  apply Nat.eq_of_testBit_eq
  intro j
  rw [Nat.testBit_shiftLeft, Nat.testBit_or, Nat.testBit_or,
    Nat.testBit_shiftLeft, Nat.testBit_shiftLeft]
  by_cases hj : k ≤ j <;> simp [hj]

theorem hseqlen2 : ∀ x, 2 ≤ x → x < 0x20 → ssu8_seqlen (0xC0 ||| x) = 2 := by
  decide

theorem hseqlen3 : ∀ x, x < 0x10 → ssu8_seqlen (0xE0 ||| x) = 3 := by decide

theorem hseqlen4 : ∀ x, x < 0x08 → ssu8_seqlen (0xF0 ||| x) = 4 := by decide

theorem hcontC0 : ∀ y, y < 0x40 → ((y ||| 0x80) &&& 0xC0) = 0x80 := by decide

theorem hcont3F : ∀ y, y < 0x40 → ((y ||| 0x80) &&& 0x3F) = y := by decide

theorem hmask1F : ∀ x, x < 0x20 → ((0xC0 ||| x) &&& 0x1F) = x := by decide

theorem hmask0F : ∀ x, x < 0x10 → ((0xE0 ||| x) &&& 0x0F) = x := by decide

theorem hmask07 : ∀ x, x < 0x08 → ((0xF0 ||| x) &&& 0x07) = x := by decide

theorem and3F_eq_mod (c : Nat) : c &&& 0x3F = c % 64 := by
  have h := Nat.and_pow_two_sub_one_eq_mod c 6
  norm_num at h
  exact h

theorem cptoseq_two {c : Nat} (h1 : 0x80 ≤ c) (h2 : c < 0x800) :
    ssu8_cptoseq c = (2, [0xC0 ||| (c >>> 6), (c &&& 0x3F) ||| 0x80]) := by
  have hc : ¬ c < 128 := by omega
  have hv : ssu_isvalid c = true := by simp [ssu_isvalid]; omega
  have hl := utf8len_two h1 h2
  simp [ssu8_cptoseq, hc, hv, hl, contBytes]

theorem seqtocp_two {c : Nat} (h1 : 0x80 ≤ c) (h2 : c < 0x800) :
    ssu8_seqtocp [0xC0 ||| (c >>> 6), (c &&& 0x3F) ||| 0x80] = (2, some c) := by
  have hx1 : 2 ≤ c >>> 6 := by rw [Nat.shiftRight_eq_div_pow]; omega
  have hx2 : c >>> 6 < 0x20 := by rw [Nat.shiftRight_eq_div_pow]; omega
  have hy : c &&& 0x3F < 0x40 := by rw [and3F_eq_mod]; omega
  have hs := hseqlen2 _ hx1 hx2
  have hc1 := hcontC0 _ hy
  have hc2 := hcont3F _ hy
  have hm := hmask1F _ hx2
  simp only [ssu8_seqtocp, List.getD_cons_zero, List.getD_cons_succ, List.getD_nil]
  rw [hs]
  simp only [hc1, hm, hc2]
  norm_num
  have hr := recompose c 6
  norm_num at hr
  exact hr

theorem glue3 (c : Nat) :
    (((c >>> 12) &&& 0x0F) <<< 12) ||| (((c >>> 6) &&& 0x3F) <<< 6) |||
      (c &&& 0x3F) = c % 2 ^ 16 := by
  have ha := and3F_eq_mod (c >>> 6)
  have hb := and3F_eq_mod c
  have hm0F : (c >>> 12) &&& 0x0F = c >>> 12 % 16 := by
    have h := Nat.and_pow_two_sub_one_eq_mod (c >>> 12) 4
    norm_num at h
    exact h
  rw [ha, hb, hm0F, Nat.shiftRight_eq_div_pow, Nat.shiftRight_eq_div_pow]
  have s1 : ((c / 2 ^ 12 % 16) <<< 12) ||| ((c / 2 ^ 6 % 64) <<< 6)
      = 2 ^ 12 * (c / 2 ^ 12 % 16) + ((c / 2 ^ 6 % 64) <<< 6) := by
    apply lor_disjoint_add
    rw [Nat.shiftLeft_eq]
    norm_num
    omega
  rw [s1]
  have s2 : 2 ^ 12 * (c / 2 ^ 12 % 16) + ((c / 2 ^ 6 % 64) <<< 6)
      = (2 ^ 6 * (c / 2 ^ 12 % 16) + c / 2 ^ 6 % 64) <<< 6 := by
    rw [Nat.shiftLeft_eq, Nat.shiftLeft_eq]
    ring
  rw [s2, lor_disjoint_add _ _ _ (show c % 64 < 2 ^ 6 by norm_num; omega)]
  norm_num
  omega

theorem glue4 (c : Nat) :
    (((c >>> 18) &&& 0x07) <<< 18) ||| (((c >>> 12) &&& 0x3F) <<< 12) |||
      (((c >>> 6) &&& 0x3F) <<< 6) ||| (c &&& 0x3F) = c % 2 ^ 21 := by
  have ha := and3F_eq_mod (c >>> 12)
  have hb := and3F_eq_mod (c >>> 6)
  have hc' := and3F_eq_mod c
  have hm07 : (c >>> 18) &&& 0x07 = c >>> 18 % 8 := by
    have h := Nat.and_pow_two_sub_one_eq_mod (c >>> 18) 3
    norm_num at h
    exact h
  rw [ha, hb, hc', hm07, Nat.shiftRight_eq_div_pow, Nat.shiftRight_eq_div_pow,
    Nat.shiftRight_eq_div_pow]
  have s1 : ((c / 2 ^ 18 % 8) <<< 18) ||| ((c / 2 ^ 12 % 64) <<< 12)
      = 2 ^ 18 * (c / 2 ^ 18 % 8) + ((c / 2 ^ 12 % 64) <<< 12) := by
    apply lor_disjoint_add
    rw [Nat.shiftLeft_eq]
    norm_num
    omega
  rw [s1]
  have s2 : 2 ^ 18 * (c / 2 ^ 18 % 8) + ((c / 2 ^ 12 % 64) <<< 12)
      = (2 ^ 6 * (c / 2 ^ 18 % 8) + c / 2 ^ 12 % 64) <<< 12 := by
    rw [Nat.shiftLeft_eq, Nat.shiftLeft_eq]
    ring
  rw [s2]
  have s3 : ((2 ^ 6 * (c / 2 ^ 18 % 8) + c / 2 ^ 12 % 64) <<< 12) |||
      ((c / 2 ^ 6 % 64) <<< 6)
      = 2 ^ 12 * (2 ^ 6 * (c / 2 ^ 18 % 8) + c / 2 ^ 12 % 64)
        + ((c / 2 ^ 6 % 64) <<< 6) := by
    apply lor_disjoint_add
    rw [Nat.shiftLeft_eq]
    norm_num
    omega
  rw [s3]
  have s4 : 2 ^ 12 * (2 ^ 6 * (c / 2 ^ 18 % 8) + c / 2 ^ 12 % 64)
        + ((c / 2 ^ 6 % 64) <<< 6)
      = (2 ^ 6 * (2 ^ 6 * (c / 2 ^ 18 % 8) + c / 2 ^ 12 % 64)
         + c / 2 ^ 6 % 64) <<< 6 := by
    rw [Nat.shiftLeft_eq, Nat.shiftLeft_eq]
    ring
  rw [s4, lor_disjoint_add _ _ _ (show c % 64 < 2 ^ 6 by norm_num; omega)]
  norm_num
  omega

theorem cptoseq_three {c : Nat} (h1 : 0x800 ≤ c) (h2 : c < 0x10000)
    (hv : ssu_isvalid c = true) :
    ssu8_cptoseq c = (3, [0xE0 ||| (c >>> 12), ((c >>> 6) &&& 0x3F) ||| 0x80,
      (c &&& 0x3F) ||| 0x80]) := by
  have hc : ¬ c < 128 := by omega
  have hl := utf8len_three h1 h2
  simp [ssu8_cptoseq, hc, hv, hl, contBytes]

theorem seqtocp_three {c : Nat} (h1 : 0x800 ≤ c) (h2 : c < 0x10000) :
    ssu8_seqtocp [0xE0 ||| (c >>> 12), ((c >>> 6) &&& 0x3F) ||| 0x80,
      (c &&& 0x3F) ||| 0x80] = (3, some c) := by
  have hx : c >>> 12 < 0x10 := by rw [Nat.shiftRight_eq_div_pow]; omega
  have hy1 : (c >>> 6) &&& 0x3F < 0x40 := by rw [and3F_eq_mod]; omega
  have hy0 : c &&& 0x3F < 0x40 := by rw [and3F_eq_mod]; omega
  have hs := hseqlen3 _ hx
  have hca := hcontC0 _ hy1
  have hcb := hcontC0 _ hy0
  have hfa := hcont3F _ hy1
  have hfb := hcont3F _ hy0
  have hm := hmask0F _ hx
  simp only [ssu8_seqtocp, List.getD_cons_zero, List.getD_cons_succ, List.getD_nil]
  rw [hs]
  simp only [hca, hcb, hfa, hfb, hm]
  norm_num
  have hg := glue3 c
  rw [Nat.mod_eq_of_lt (show c < 2 ^ 16 by norm_num; omega)] at hg
  have hm0F : (c >>> 12) &&& 0x0F = c >>> 12 := by
    have h := Nat.and_pow_two_sub_one_eq_mod (c >>> 12) 4
    norm_num at h
    rw [h, Nat.mod_eq_of_lt]
    omega
  rw [hm0F] at hg
  exact hg

theorem cptoseq_four {c : Nat} (h1 : 0x10000 ≤ c) (h2 : c ≤ 0x10FFFF) :
    ssu8_cptoseq c = (4, [0xF0 ||| (c >>> 18), ((c >>> 12) &&& 0x3F) ||| 0x80,
      ((c >>> 6) &&& 0x3F) ||| 0x80, (c &&& 0x3F) ||| 0x80]) := by
  have hc : ¬ c < 128 := by omega
  have hv : ssu_isvalid c = true := by simp [ssu_isvalid]; omega
  have hl := utf8len_four h1 h2
  have h12 : c >>> 6 >>> 6 = c >>> 12 := by
    rw [← Nat.shiftRight_add]
  have h18 : c >>> 12 >>> 6 = c >>> 18 := by
    rw [← Nat.shiftRight_add]
  simp [ssu8_cptoseq, hc, hv, hl, contBytes, h12, h18]

theorem seqtocp_four {c : Nat} (h1 : 0x10000 ≤ c) (h2 : c ≤ 0x10FFFF) :
    ssu8_seqtocp [0xF0 ||| (c >>> 18), ((c >>> 12) &&& 0x3F) ||| 0x80,
      ((c >>> 6) &&& 0x3F) ||| 0x80, (c &&& 0x3F) ||| 0x80] = (4, some c) := by
  have hx : c >>> 18 < 0x08 := by rw [Nat.shiftRight_eq_div_pow]; omega
  have hy2 : (c >>> 12) &&& 0x3F < 0x40 := by rw [and3F_eq_mod]; omega
  have hy1 : (c >>> 6) &&& 0x3F < 0x40 := by rw [and3F_eq_mod]; omega
  have hy0 : c &&& 0x3F < 0x40 := by rw [and3F_eq_mod]; omega
  have hs := hseqlen4 _ hx
  have hca := hcontC0 _ hy2
  have hcb := hcontC0 _ hy1
  have hcc := hcontC0 _ hy0
  have hfa := hcont3F _ hy2
  have hfb := hcont3F _ hy1
  have hfc := hcont3F _ hy0
  have hm := hmask07 _ hx
  simp only [ssu8_seqtocp, List.getD_cons_zero, List.getD_cons_succ, List.getD_nil]
  rw [hs]
  simp only [hca, hcb, hcc, hfa, hfb, hfc, hm]
  norm_num
  have hg := glue4 c
  rw [Nat.mod_eq_of_lt (show c < 2 ^ 21 by norm_num; omega)] at hg
  have hm07 : (c >>> 18) &&& 0x07 = c >>> 18 := by
    have h := Nat.and_pow_two_sub_one_eq_mod (c >>> 18) 3
    norm_num at h
    rw [h, Nat.mod_eq_of_lt]
    rw [Nat.shiftRight_eq_div_pow]
    omega
  rw [hm07] at hg
  exact hg

/-- C4: encode-then-decode is the identity on valid code points, and the
consumed length agrees with `ssu8_cpseqlen`. -/
theorem utf8_roundtrip : ∀ c : Nat, ssu_isvalid c = true →
    ssu8_seqtocp (ssu8_cptoseq c).2 = (ssu8_cpseqlen c, some c) ∧
    (ssu8_cptoseq c).1 = ssu8_cpseqlen c := by
  intro c hv
  have hrange : c < 0xD800 ∨ (0xDFFF < c ∧ c ≤ 0x10FFFF) := by
    simp [ssu_isvalid] at hv
    rcases hv with h | h
    · exact Or.inl h
    · exact Or.inr h
  have hlen : ssu8_cpseqlen c = utf8len c := by simp [ssu8_cpseqlen, hv]
  by_cases h1 : c < 0x80
  · have he : ssu8_cptoseq c = (1, [c]) := by simp [ssu8_cptoseq, h1]
    have hd : ssu8_seqtocp [c] = (1, some c) := by
      have hs : ssu8_seqlen c = 1 := by simp [ssu8_seqlen, h1]
      simp only [ssu8_seqtocp, List.getD_cons_zero, List.getD_cons_succ,
        List.getD_nil]
      rw [hs]
    have hu : utf8len c = 1 := by simp [utf8len]; omega
    rw [he, hd, hlen, hu]
    exact ⟨rfl, rfl⟩
  · by_cases h2 : c < 0x800
    · have he := cptoseq_two (by omega) h2
      have hd := seqtocp_two (by omega) h2
      have hu := utf8len_two (by omega) h2
      rw [he, hlen, hu]
      exact ⟨hd, rfl⟩
    · by_cases h3 : c < 0x10000
      · have he := cptoseq_three (by omega) h3 hv
        have hd := seqtocp_three (by omega) h3
        have hu := utf8len_three (by omega) h3
        rw [he, hlen, hu]
        exact ⟨hd, rfl⟩
      · have hc : c ≤ 0x10FFFF := by omega
        have he := cptoseq_four (by omega) hc
        have hd := seqtocp_four (by omega) hc
        have hu := utf8len_four (by omega) hc
        rw [he, hlen, hu]
        exact ⟨hd, rfl⟩

/-- C4 witness: the round trip instantiated at the concrete code point
U+263A. -/
theorem utf8_roundtrip_witness :
    ssu_isvalid 0x263A = true ∧
    (ssu8_seqtocp (ssu8_cptoseq 0x263A).2 = (ssu8_cpseqlen 0x263A, some 0x263A) ∧
     (ssu8_cptoseq 0x263A).1 = ssu8_cpseqlen 0x263A) :=
  ⟨by decide, utf8_roundtrip 0x263A (by decide)⟩

/-- C2: `ssu8_seqtocp` accepts a 3-byte sequence whose first continuation
byte does not match `10xxxxxx` (because the rejection tests are combined
with `&&`, the sequence is rejected only when every continuation byte is
malformed): on `E0 00 80` it returns 3 and decodes a code point, where
the claim requires the return value 0. -/
theorem seqtocp_accepts_bad_continuation :
    ((0x00 : Nat) &&& 0xC0 ≠ 0x80) ∧ ((0x80 : Nat) &&& 0xC0 = 0x80) ∧
    ssu8_seqtocp [0xE0, 0x00, 0x80] = (3, some 0) := by decide

/-! ## The buffer model -/

/-- `_SSTRING_EMPTY`. -/
def typeEmpty : Nat := 0

/-- `_SSTRING_STACK`. -/
def typeStack : Nat := 1

/-- `_SSTRING_NORM`. -/
def typeNorm : Nat := 2

/-- `_SS_HEAP_ALLOCATED`. -/
def heapBit : Nat := 0x100

/-- `_SS_TYPE_MASK`. -/
def typeMask : Nat := 0x0000FFFF

/-- `_SS_GROW_MASK`. -/
def growMask : Nat := 0xFFFF0000

/-- `_SS_GROW_SHIFT`. -/
def growShift : Nat := 16

/-- A buffer together with its hidden header (`_sstring_t`): capacity,
length, packed type word, and the physical byte region of `cap + 1`
bytes (data plus sentinel slot). -/
structure Buf where
  cap : Nat
  len : Nat
  typ : Nat
  data : List Nat
deriving Repr, DecidableEq

/-- Well-formedness: the physical region has exactly `cap + 1` bytes and
the length is within capacity (the documented length invariant). -/
def WF (b : Buf) : Prop :=
  b.data.length = b.cap + 1 ∧ b.len ≤ b.cap

instance (b : Buf) : Decidable (WF b) := by
  unfold WF
  infer_instance

/-- The logical content of a buffer: its first `len` bytes. -/
def content (b : Buf) : List Nat := b.data.take b.len

/-- `g_ss_empty[0]`, the empty singleton returned by `ss_empty()`:
capacity 0, length 0, type word `SS_GROW0 << 16 = 0`, one data byte
(the `int s` field of `_sstring_empty_t` provides the sentinel). -/
def ss_empty : Buf := ⟨0, 0, 0, [0]⟩

/-! ### Raw memory primitives over the physical byte region -/

/-- Write `src` into `d` starting at `dst` (like `memcpy` from a source
outside the buffer); writes past the end of the allocation are dropped. -/
def storeB (d : List Nat) (dst : Nat) (src : List Nat) : List Nat :=
  d.take dst ++ src.take (d.length - dst) ++ d.drop (dst + src.length)

/-- `memmove` inside the region: copy `n` bytes from offset `src` to
offset `dst`, as if through a temporary buffer; the copied segment is
clipped to the allocation. -/
def memmoveB (d : List Nat) (dst src n : Nat) : List Nat :=
  storeB d dst ((d.drop src).take n)

/-- `memcmp(d + i, cs, cs.length) == 0`. -/
def memcmpB (d : List Nat) (i : Nat) (cs : List Nat) : Bool :=
  (List.range cs.length).all fun j => d.getD (i + j) 0 == cs.getD j 0

/-- `memchr` over `[start, start + n)`: the lowest index holding byte
`c`, restricted to the allocation. -/
def memchar (d : List Nat) (c : Nat) : Nat → Nat → Option Nat
  | _, 0 => none
  | start, n + 1 =>
    if start < d.length ∧ d.getD start 0 == c then some start
    else memchar d c (start + 1) n

/-- `_ss_memrchar(d, c, k)` scans indices `k` down to `0` inclusive and
returns the highest index holding byte `c`. -/
def memrchar (d : List Nat) (c : Nat) : Nat → Option Nat
  | 0 => if d.getD 0 0 == c then some 0 else none
  | k + 1 =>
    if d.getD (k + 1) 0 == c then some (k + 1) else memrchar d c k

/-- `strchr(d + i, c)` for a nonzero `c`: scan forward from `i` until a
zero byte (or the end of the allocation, which reads as zero). -/
def strchrNul (d : List Nat) (c : Nat) : Nat → Nat → Option Nat
  | _, 0 => none
  | i, fuel + 1 =>
    let b := d.getD i 0
    if b == c then some i
    else if b == 0 then none
    else strchrNul d c (i + 1) fuel

/-! ## Scan/search primitives (`ss_find`, `ss_count`, `ss_rfind`) -/

/-- The body of the `for (;;)` loop of `ss_find`.  The loop invariant of
the C code is `searchlen = len - cursor`; the `memchr` fast-skip for the
first needle byte is modelled exactly. -/
def findLoop (d : List Nat) (len : Nat) (cs : List Nat) :
    Nat → Nat → Nat → Nat
  | 0, _, _ => npos
  | fuel + 1, cursor, searchlen =>
    match
      (if cs.getD 0 0 ≠ d.getD cursor 0 then memchar d (cs.getD 0 0) cursor searchlen
       else some cursor) with
    | none => npos
    | some cur =>
      let slen := len - cur
      if slen < cs.length then npos
      else if memcmpB d cur cs then cur
      else findLoop d len cs fuel (cur + 1) (slen - 1)

/-- `ss_find(s, index, cs, len)`. -/
def ss_find (b : Buf) (index : Nat) (cs : List Nat) : Nat :=
  if cs.length ≠ 0 ∧ b.len ≠ 0 ∧ index < b.len then
    findLoop b.data b.len cs (b.len - index + 1) index (b.len - index)
  else npos

/-- The body of the `for (;;)` loop of `ss_count`: like `findLoop`, but
counting; after a match the scan resumes past the matched run. -/
def countLoop (d : List Nat) (len : Nat) (cs : List Nat) :
    Nat → Nat → Nat → Nat → Nat
  | 0, _, _, count => count
  | fuel + 1, cursor, searchlen, count =>
    match
      (if cs.getD 0 0 ≠ d.getD cursor 0 then memchar d (cs.getD 0 0) cursor searchlen
       else some cursor) with
    | none => count
    | some cur =>
      let slen := len - cur
      if slen < cs.length then count
      else if memcmpB d cur cs then
        if slen - cs.length < cs.length then count + 1
        else countLoop d len cs fuel (cur + cs.length) (slen - cs.length) (count + 1)
      else countLoop d len cs fuel (cur + 1) (slen - 1) count

/-- `ss_count(s, index, cs, len)`. -/
def ss_count (b : Buf) (index : Nat) (cs : List Nat) : Nat :=
  if cs.length ≠ 0 then
    if b.len ≤ index then 0
    else countLoop b.data b.len cs (b.len - index + 1) index (b.len - index) 0
  else 0

/-- The body of the `for (;;)` loop of `ss_rfind`: scan backward aligned
on the needle's last byte; invariant `searchlen = cursor + 1`. -/
def rfindLoop (d : List Nat) (cs : List Nat) : Nat → Nat → Nat → Nat
  | 0, _, _ => npos
  | fuel + 1, cursor, searchlen =>
    let last := cs.length - 1
    match
      (if cs.getD last 0 ≠ d.getD cursor 0 then memrchar d (cs.getD last 0) (searchlen - 1)
       else some cursor) with
    | none => npos
    | some cur =>
      let slen := cur + 1
      if slen < cs.length then npos
      else if memcmpB d (cur - last) cs then cur - last
      else rfindLoop d cs fuel (cur - 1) (slen - 1)

/-- `ss_rfind(s, index, cs, len)`.  Note the clamp tests `index > len`
(not `index ≥ len`), so `index = len` falls through to the range test
and yields `NPOS`. -/
def ss_rfind (b : Buf) (index : Nat) (cs : List Nat) : Nat :=
  let index := if b.len < index then b.len - 1 else index
  if cs.length ≠ 0 ∧ b.len ≠ 0 ∧ index < b.len then
    rfindLoop b.data cs (index + 2) index (index + 1)
  else npos

/-! ## Specification-side search definitions (from the claims' words) -/

/-- The needle occurs as a contiguous run at position `p` of `content`. -/
def matchAt (content needle : List Nat) (p : Nat) : Bool :=
  decide (p + needle.length ≤ content.length) &&
  (List.range needle.length).all fun j => content.getD (p + j) 0 == needle.getD j 0

/-- Greedy non-overlapping occurrence count from position `p` on: after
a match the scan resumes immediately past the matched run, otherwise it
advances one position. -/
def countSpecGo (content needle : List Nat) : Nat → Nat → Nat
  | 0, _ => 0
  | fuel + 1, p =>
    if content.length < p + needle.length then 0
    else if matchAt content needle p then
      1 + countSpecGo content needle fuel (p + needle.length)
    else countSpecGo content needle fuel (p + 1)

/-- The number of non-overlapping occurrences of the needle at positions
`≥ p` (an empty needle matches nothing). -/
def countSpec (content needle : List Nat) (p : Nat) : Nat :=
  if needle.length = 0 then 0
  else countSpecGo content needle (content.length + 1) p

theorem countSpecGo_fuel {content needle : List Nat} (hn : needle.length ≠ 0) :
    ∀ f1 f2 p, content.length + 1 ≤ p + f1 → content.length + 1 ≤ p + f2 →
      countSpecGo content needle f1 p = countSpecGo content needle f2 p := by
  intro f1
  induction f1 with
  | zero =>
    intro f2 p h1 h2
    cases f2 with
    | zero => rfl
    | succ f2 =>
      simp only [countSpecGo]
      rw [if_pos (by omega)]
  | succ f1 ih =>
    intro f2 p h1 h2
    cases f2 with
    | zero =>
      simp only [countSpecGo]
      rw [if_pos (by omega)]
    | succ f2 =>
      simp only [countSpecGo]
      by_cases hb : content.length < p + needle.length
      · rw [if_pos hb, if_pos hb]
      · rw [if_neg hb, if_neg hb]
        by_cases hm : matchAt content needle p
        · rw [if_pos hm, if_pos hm, ih f2 (p + needle.length) (by omega) (by omega)]
        · rw [if_neg hm, if_neg hm, ih f2 (p + 1) (by omega) (by omega)]

/-- Reading inside the logical content equals reading the raw region. -/
theorem content_getD {d : List Nat} {len q : Nat} (h : q < len) :
    (d.take len).getD q 0 = d.getD q 0 := by
  rw [List.getD_eq_getElem?_getD, List.getD_eq_getElem?_getD,
    List.getElem?_take_of_lt h]

theorem memchar_none {d : List Nat} {c start n : Nat}
    (h : memchar d c start n = none) :
    ∀ q, start ≤ q → q < start + n → ¬(q < d.length ∧ d.getD q 0 = c) := by
  induction n generalizing start with
  | zero => intro q h1 h2; omega
  | succ n ih =>
    intro q h1 h2
    rw [memchar] at h
    by_cases hs : start < d.length ∧ d.getD start 0 == c
    · rw [if_pos hs] at h; exact absurd h (by simp)
    · rw [if_neg hs] at h
      rcases Nat.eq_or_lt_of_le h1 with rfl | hq
      · intro hcontra
        exact hs ⟨hcontra.1, beq_iff_eq.mpr hcontra.2⟩
      · exact ih h q hq (by omega)

theorem memchar_some {d : List Nat} {c start n q : Nat}
    (h : memchar d c start n = some q) :
    start ≤ q ∧ q < start + n ∧ q < d.length ∧ d.getD q 0 = c ∧
      (∀ r, start ≤ r → r < q → ¬(r < d.length ∧ d.getD r 0 = c)) := by
  induction n generalizing start with
  | zero => rw [memchar] at h; exact absurd h (by simp)
  | succ n ih =>
    rw [memchar] at h
    by_cases hs : start < d.length ∧ d.getD start 0 == c
    · rw [if_pos hs] at h
      have hq : start = q := by simpa using h
      subst hq
      exact ⟨le_refl _, by omega, hs.1, beq_iff_eq.mp hs.2, by omega⟩
    · rw [if_neg hs] at h
      obtain ⟨h1, h2, h3, h4, h5⟩ := ih h
      refine ⟨by omega, by omega, h3, h4, ?_⟩
      intro r hr1 hr2
      rcases Nat.eq_or_lt_of_le hr1 with rfl | hr
      · intro hcontra
        exact hs ⟨hcontra.1, beq_iff_eq.mpr hcontra.2⟩
      · exact h5 r hr hr2

theorem take_len_length {d : List Nat} {len : Nat} (h : len ≤ d.length) :
    (List.take len d).length = len := by
  rw [List.length_take]
  omega

theorem matchAt_eq_memcmpB {d cs : List Nat} {len cur : Nat}
    (hlen : len ≤ d.length) (hb : cur + cs.length ≤ len) :
    matchAt (d.take len) cs cur = memcmpB d cur cs := by
  unfold matchAt memcmpB
  rw [take_len_length hlen, decide_eq_true hb, Bool.true_and]
  rw [Bool.eq_iff_iff]
  simp only [List.all_eq_true, List.mem_range]
  constructor
  · intro h j hj
    have := h j hj
    rwa [content_getD (show cur + j < len by omega)] at this
  · intro h j hj
    have := h j hj
    rwa [content_getD (show cur + j < len by omega)]

theorem matchAt_false_first {d cs : List Nat} {len p : Nat}
    (hn : cs.length ≠ 0) (hlen : len ≤ d.length) (hlt : p < len)
    (hne : d.getD p 0 ≠ cs.getD 0 0) :
    matchAt (d.take len) cs p = false := by
  unfold matchAt
  by_cases hb : p + cs.length ≤ (List.take len d).length
  · rw [decide_eq_true hb, Bool.true_and]
    apply List.all_eq_false.mpr
    refine ⟨0, List.mem_range.mpr (by omega), ?_⟩
    rw [Nat.add_zero, content_getD hlt]
    simpa using hne
  · rw [decide_eq_false hb, Bool.false_and]

theorem memcmpB_single {d cs : List Nat} {cur : Nat} (h1 : cs.length = 1)
    (h2 : d.getD cur 0 = cs.getD 0 0) : memcmpB d cur cs = true := by
  unfold memcmpB
  rw [h1, show List.range 1 = [0] from rfl]
  simp only [List.all_cons, List.all_nil, Bool.and_true, Nat.add_zero]
  exact beq_iff_eq.mpr h2

theorem spec_zero_of_no_first {d cs : List Nat} {len : Nat}
    (hn : cs.length ≠ 0) (hlen : len ≤ d.length) :
    ∀ f p, (∀ q, p ≤ q → q < len → d.getD q 0 ≠ cs.getD 0 0) →
      countSpecGo (d.take len) cs f p = 0 := by
  intro f
  induction f with
  | zero => intro p _; rfl
  | succ f ih =>
    intro p h
    simp only [countSpecGo, take_len_length hlen]
    by_cases hb : len < p + cs.length
    · rw [if_pos hb]
    · rw [if_neg hb]
      have hm : matchAt (d.take len) cs p = false :=
        matchAt_false_first hn hlen (by omega) (h p (le_refl p) (by omega))
      rw [hm]
      simp only [Bool.false_eq_true, if_false]
      exact ih (p + 1) (fun q hq1 hq2 => h q (by omega) hq2)

theorem spec_gap {d cs : List Nat} {len : Nat} (hn : cs.length ≠ 0)
    (hlen : len ≤ d.length) :
    ∀ gap p f1 f2, (∀ q, p ≤ q → q < p + gap → d.getD q 0 ≠ cs.getD 0 0) →
      p + gap ≤ len → len + 1 ≤ p + f1 → len + 1 ≤ p + gap + f2 →
      countSpecGo (d.take len) cs f1 p = countSpecGo (d.take len) cs f2 (p + gap) := by
  intro gap
  induction gap with
  | zero =>
    intro p f1 f2 _ _ h1 h2
    rw [Nat.add_zero]
    have hL := take_len_length hlen
    exact countSpecGo_fuel hn f1 f2 p (by omega) (by omega)
  | succ gap ih =>
    intro p f1 f2 h hle h1 h2
    cases f1 with
    | zero => omega
    | succ f1 =>
      simp only [countSpecGo, take_len_length hlen]
      by_cases hcs : len < p + cs.length
      · rw [if_pos hcs]
        obtain ⟨f2', hf2⟩ : ∃ f2', f2 = f2' + 1 := ⟨f2 - 1, by omega⟩
        subst hf2
        simp only [countSpecGo, take_len_length hlen]
        rw [if_pos (by omega)]
      · rw [if_neg hcs]
        have hm : matchAt (d.take len) cs p = false :=
          matchAt_false_first hn hlen (by omega) (h p (le_refl p) (by omega))
        rw [hm]
        simp only [Bool.false_eq_true, if_false]
        have := ih (p + 1) f1 f2 (fun q hq1 hq2 => h q (by omega) (by omega))
          (by omega) (by omega) (by omega)
        rwa [show p + 1 + gap = p + (gap + 1) by omega] at this

theorem countLoop_eq_spec {d cs : List Nat} {len : Nat} (hn : cs.length ≠ 0)
    (hlen : len ≤ d.length) :
    ∀ fuel cursor count, cursor < len → len < cursor + fuel →
      countLoop d len cs fuel cursor (len - cursor) count
        = count + countSpecGo (d.take len) cs (len + 1 - cursor) cursor := by
  intro fuel
  induction fuel with
  | zero => intro cursor count h1 h2; omega
  | succ fuel ih =>
    intro cursor count h1 h2
    have hL := take_len_length hlen
    have step : ∀ cur, cursor ≤ cur → cur < len →
        d.getD cur 0 = cs.getD 0 0 →
        (∀ q, cursor ≤ q → q < cur → d.getD q 0 ≠ cs.getD 0 0) →
        (if len - cur < cs.length then count
         else if memcmpB d cur cs then
           if len - cur - cs.length < cs.length then count + 1
           else countLoop d len cs fuel (cur + cs.length)
             (len - cur - cs.length) (count + 1)
         else countLoop d len cs fuel (cur + 1) (len - cur - 1) count)
          = count + countSpecGo (d.take len) cs (len + 1 - cursor) cursor := by
      intro cur hc1 hc2 hfirst hnoocc
      have hgap : countSpecGo (d.take len) cs (len + 1 - cursor) cursor
          = countSpecGo (d.take len) cs (len + 1 - cur) cur := by
        have := spec_gap hn hlen (cur - cursor) cursor (len + 1 - cursor)
          (len + 1 - cur)
          (fun q hq1 hq2 => hnoocc q hq1 (by omega)) (by omega) (by omega)
          (by omega)
        rwa [show cursor + (cur - cursor) = cur by omega] at this
      rw [hgap]
      obtain ⟨f, hf⟩ : ∃ f, len + 1 - cur = f + 1 := ⟨len - cur, by omega⟩
      by_cases hsl : len - cur < cs.length
      · rw [if_pos hsl, hf]
        simp only [countSpecGo, hL]
        rw [if_pos (by omega)]
        omega
      · rw [if_neg hsl]
        have hbound : cur + cs.length ≤ len := by omega
        by_cases hcmp : memcmpB d cur cs
        · rw [if_pos hcmp]
          have hmA : matchAt (d.take len) cs cur = true := by
            rw [matchAt_eq_memcmpB hlen hbound]; exact hcmp
          by_cases hdone : len - cur - cs.length < cs.length
          · rw [if_pos hdone, hf]
            simp only [countSpecGo, hL]
            rw [if_neg (by omega), hmA]
            simp only [if_true]
            obtain ⟨f2, hf2⟩ : ∃ f2, f = f2 + 1 := ⟨f - 1, by omega⟩
            rw [hf2]
            simp only [countSpecGo, hL]
            rw [if_pos (by omega)]
          · rw [if_neg hdone]
            have hrec := ih (cur + cs.length) (count + 1) (by omega) (by omega)
            rw [show len - (cur + cs.length) = len - cur - cs.length by omega]
              at hrec
            rw [hrec, hf]
            simp only [countSpecGo, hL]
            rw [if_neg (by omega), hmA]
            simp only [if_true]
            rw [countSpecGo_fuel hn f (len + 1 - (cur + cs.length))
              (cur + cs.length) (by omega) (by omega)]
            omega
        · rw [if_neg hcmp]
          have hlen2 : 2 ≤ cs.length := by
            rcases Nat.lt_or_ge cs.length 2 with hlt | hge
            · exfalso
              have h1' : cs.length = 1 := by omega
              exact hcmp (memcmpB_single h1' hfirst)
            · exact hge
          have hrec := ih (cur + 1) count (by omega) (by omega)
          rw [show len - (cur + 1) = len - cur - 1 by omega] at hrec
          rw [hrec, hf]
          simp only [countSpecGo, hL]
          rw [if_neg (by omega)]
          have hmA : matchAt (d.take len) cs cur = false := by
            rw [matchAt_eq_memcmpB hlen hbound]
            exact Bool.not_eq_true _ ▸ (by simpa using hcmp)
          rw [hmA]
          simp only [Bool.false_eq_true, if_false]
          rw [show f = len + 1 - (cur + 1) by omega]
    simp only [countLoop]
    by_cases hfb : cs.getD 0 0 ≠ d.getD cursor 0
    · rw [if_pos hfb]
      cases hmc : memchar d (cs.getD 0 0) cursor (len - cursor) with
      | none =>
        have hz := spec_zero_of_no_first hn hlen (len + 1 - cursor) cursor ?_
        · rw [hz]
          exact (Nat.add_zero count).symm
        · intro q hq1 hq2
          have := memchar_none hmc q hq1 (by omega)
          intro hcontra
          exact this ⟨by omega, hcontra⟩
      | some cur =>
        obtain ⟨ha1, ha2, _, ha4, ha5⟩ := memchar_some hmc
        exact step cur ha1 (by omega) ha4 (fun q hq1 hq2 => by
          intro hcontra
          exact ha5 q hq1 hq2 ⟨by omega, hcontra⟩)
    · rw [if_neg hfb]
      push_neg at hfb
      exact step cursor (le_refl _) h1 hfb.symm (fun q hq1 hq2 => by omega)

theorem ss_count_eq_countSpec (b : Buf) (index : Nat) (cs : List Nat)
    (hwf : WF b) : ss_count b index cs = countSpec (content b) cs index := by
  obtain ⟨hd, hl⟩ := hwf
  have hlen : b.len ≤ b.data.length := by omega
  have hL := take_len_length hlen
  unfold ss_count countSpec content
  by_cases hcs : cs.length = 0
  · rw [if_neg (by omega), if_pos hcs]
  · rw [if_pos hcs, if_neg hcs]
    by_cases hidx : b.len ≤ index
    · rw [if_pos hidx, hL]
      simp only [countSpecGo, hL]
      rw [if_pos (by omega)]
    · rw [if_neg hidx]
      have heq := countLoop_eq_spec hcs hlen (b.len - index + 1) index 0
        (by omega) (by omega)
      rw [heq, hL]
      rw [countSpecGo_fuel hcs (b.len + 1 - index) (b.len + 1) index
        (by omega) (by omega)]
      omega

/-- C5: `ss_count` returns the number of greedy non-overlapping
occurrences of the needle at positions at or after the start index (the
scan resumes past each matched run); an empty needle matches nothing;
and counting "aa" in "aaaa" from index 0 yields 2, not 3. -/
theorem ss_count_nonoverlapping :
    (∀ (b : Buf) (index : Nat) (cs : List Nat), WF b →
        ss_count b index cs = countSpec (content b) cs index) ∧
    (∀ (b : Buf) (index : Nat), ss_count b index [] = 0) ∧
    ss_count ⟨4, 4, 0x102, [97, 97, 97, 97, 0]⟩ 0 [97, 97] = 2 ∧
    countSpec [97, 97, 97, 97] [97, 97] 0 = 2 ∧ (2 : Nat) ≠ 3 :=
  ⟨ss_count_eq_countSpec, fun _ _ => rfl, by decide, by decide, by decide⟩

/-- C5 witness: the main equivalence applied at a concrete buffer. -/
theorem ss_count_nonoverlapping_witness :
    WF ⟨4, 4, 0x102, [97, 97, 97, 97, 0]⟩ ∧
    ss_count ⟨4, 4, 0x102, [97, 97, 97, 97, 0]⟩ 0 [97, 97]
      = countSpec (content ⟨4, 4, 0x102, [97, 97, 97, 97, 0]⟩) [97, 97] 0 :=
  ⟨by decide,
   ss_count_nonoverlapping.1 ⟨4, 4, 0x102, [97, 97, 97, 97, 0]⟩ 0 [97, 97]
     (by decide)⟩

/-! ## Backward search specification and `ss_rfind` (claim C6) -/

/-- Backward greedy scan: the largest position `p ≤ p0` at which the
needle occurs, `NPOS` if there is none. -/
def rScan (content needle : List Nat) : Nat → Nat
  | 0 => if matchAt content needle 0 then 0 else npos
  | p + 1 => if matchAt content needle (p + 1) then p + 1
             else rScan content needle p

/-- From the claim's words: the largest position at which the needle
occurs entirely within bytes `[0, idx]`, or `NPOS`. -/
def rfindSpec (content needle : List Nat) (idx : Nat) : Nat :=
  if needle.length = 0 ∨ content.length = 0 then npos
  else if idx + 1 < needle.length then npos
  else rScan content needle (idx + 1 - needle.length)

theorem memrchar_some_spec {d : List Nat} {c k q : Nat}
    (h : memrchar d c k = some q) :
    q ≤ k ∧ d.getD q 0 = c ∧ ∀ r, q < r → r ≤ k → d.getD r 0 ≠ c := by
  induction k with
  | zero =>
    rw [memrchar] at h
    by_cases hs : d.getD 0 0 == c
    · rw [if_pos hs] at h
      have : q = 0 := by simpa using h.symm
      subst this
      exact ⟨le_refl _, beq_iff_eq.mp hs, by omega⟩
    · rw [if_neg hs] at h
      exact absurd h (by simp)
  | succ k ih =>
    rw [memrchar] at h
    by_cases hs : d.getD (k + 1) 0 == c
    · rw [if_pos hs] at h
      have : q = k + 1 := by simpa using h.symm
      subst this
      exact ⟨le_refl _, beq_iff_eq.mp hs, by omega⟩
    · rw [if_neg hs] at h
      obtain ⟨h1, h2, h3⟩ := ih h
      refine ⟨by omega, h2, ?_⟩
      intro r hr1 hr2
      rcases Nat.lt_or_ge r (k + 1) with hr | hr
      · exact h3 r hr1 (by omega)
      · have : r = k + 1 := by omega
        subst this
        exact fun hcontra => hs (beq_iff_eq.mpr hcontra)

theorem memrchar_none_spec {d : List Nat} {c k : Nat}
    (h : memrchar d c k = none) :
    ∀ r, r ≤ k → d.getD r 0 ≠ c := by
  induction k with
  | zero =>
    rw [memrchar] at h
    by_cases hs : d.getD 0 0 == c
    · rw [if_pos hs] at h; exact absurd h (by simp)
    · intro r hr
      have : r = 0 := by omega
      subst this
      exact fun hcontra => hs (beq_iff_eq.mpr hcontra)
  | succ k ih =>
    rw [memrchar] at h
    by_cases hs : d.getD (k + 1) 0 == c
    · rw [if_pos hs] at h; exact absurd h (by simp)
    · rw [if_neg hs] at h
      intro r hr
      rcases Nat.lt_or_ge r (k + 1) with hrk | hrk
      · exact ih h r (by omega)
      · have : r = k + 1 := by omega
        subst this
        exact fun hcontra => hs (beq_iff_eq.mpr hcontra)

theorem matchAt_false_last {d cs : List Nat} {len p : Nat}
    (hn : cs.length ≠ 0) (hlen : len ≤ d.length)
    (hne : d.getD (p + cs.length - 1) 0 ≠ cs.getD (cs.length - 1) 0) :
    matchAt (d.take len) cs p = false := by
  unfold matchAt
  by_cases hb : p + cs.length ≤ (List.take len d).length
  · rw [decide_eq_true hb, Bool.true_and]
    apply List.all_eq_false.mpr
    refine ⟨cs.length - 1, List.mem_range.mpr (by omega), ?_⟩
    have hL := take_len_length hlen
    rw [content_getD (show p + (cs.length - 1) < len by omega),
      show p + (cs.length - 1) = p + cs.length - 1 by omega]
    simpa using hne
  · rw [decide_eq_false hb, Bool.false_and]

theorem rScan_all_false {content cs : List Nat} :
    ∀ p0, (∀ p, p ≤ p0 → matchAt content cs p = false) →
      rScan content cs p0 = npos := by
  intro p0
  induction p0 with
  | zero =>
    intro h
    rw [rScan, h 0 (le_refl _)]
    simp
  | succ p0 ih =>
    intro h
    rw [rScan, h (p0 + 1) (le_refl _)]
    simp only [Bool.false_eq_true, if_false]
    exact ih (fun p hp => h p (by omega))

theorem rScan_gap {content cs : List Nat} :
    ∀ p0 p', p' ≤ p0 →
      (∀ p, p' < p → p ≤ p0 → matchAt content cs p = false) →
      rScan content cs p0 = rScan content cs p' := by
  intro p0
  induction p0 with
  | zero =>
    intro p' h _
    have : p' = 0 := by omega
    subst this
    rfl
  | succ p0 ih =>
    intro p' hle h
    rcases Nat.eq_or_lt_of_le hle with rfl | hlt
    · rfl
    · rw [rScan, h (p0 + 1) (by omega) (le_refl _)]
      simp only [Bool.false_eq_true, if_false]
      exact ih p' (by omega) (fun p hp1 hp2 => h p hp1 (by omega))

theorem rScan_self {content cs : List Nat} {p : Nat}
    (h : matchAt content cs p = true) : rScan content cs p = p := by
  cases p with
  | zero => rw [rScan, h]; simp
  | succ p => rw [rScan, h]; simp

theorem rfindLoop_eq {d cs : List Nat} {len : Nat} (hn : cs.length ≠ 0)
    (hlen : len ≤ d.length) :
    ∀ fuel cursor, cursor < len → cursor < fuel →
      rfindLoop d cs fuel cursor (cursor + 1)
        = if cursor + 1 < cs.length then npos
          else rScan (d.take len) cs (cursor + 1 - cs.length) := by
  intro fuel
  induction fuel with
  | zero => intro cursor h1 h2; omega
  | succ fuel ih =>
    intro cursor h1 h2
    have step : ∀ cur, cur ≤ cursor →
        d.getD cur 0 = cs.getD (cs.length - 1) 0 →
        (∀ r, cur < r → r ≤ cursor → d.getD r 0 ≠ cs.getD (cs.length - 1) 0) →
        (if cur + 1 < cs.length then npos
         else if memcmpB d (cur - (cs.length - 1)) cs then cur - (cs.length - 1)
         else rfindLoop d cs fuel (cur - 1) (cur + 1 - 1))
          = if cursor + 1 < cs.length then npos
            else rScan (d.take len) cs (cursor + 1 - cs.length) := by
      intro cur hc1 hlast hgap
      by_cases hslen : cur + 1 < cs.length
      · rw [if_pos hslen]
        by_cases hcs : cursor + 1 < cs.length
        · rw [if_pos hcs]
        · rw [if_neg hcs]
          refine (rScan_all_false _ ?_).symm
          intro p hp
          apply matchAt_false_last hn hlen
          rw [show p + cs.length - 1 = p + (cs.length - 1) by omega]
          exact hgap (p + (cs.length - 1)) (by omega) (by omega)
      · rw [if_neg hslen]
        have hcs : ¬ cursor + 1 < cs.length := by omega
        rw [if_neg hcs]
        have hRg : rScan (d.take len) cs (cursor + 1 - cs.length)
            = rScan (d.take len) cs (cur + 1 - cs.length) := by
          apply rScan_gap _ _ (by omega)
          intro q hq1 hq2
          apply matchAt_false_last hn hlen
          rw [show q + cs.length - 1 = q + (cs.length - 1) by omega]
          exact hgap (q + (cs.length - 1)) (by omega) (by omega)
        rw [hRg]
        have hp : cur - (cs.length - 1) = cur + 1 - cs.length := by omega
        by_cases hcmp : memcmpB d (cur - (cs.length - 1)) cs
        · rw [if_pos hcmp, hp]
          refine (rScan_self ?_).symm
          rw [matchAt_eq_memcmpB hlen (by omega), ← hp]
          exact hcmp
        · rw [if_neg hcmp]
          have hnl2 : 2 ≤ cs.length := by
            rcases Nat.lt_or_ge cs.length 2 with hlt | hge
            · exfalso
              have h1' : cs.length = 1 := by omega
              apply hcmp
              apply memcmpB_single h1'
              rw [h1'] at hp ⊢
              rw [show cur - (1 - 1) = cur by omega]
              rw [h1'] at hlast
              exact hlast
            · exact hge
          have hcur1 : 1 ≤ cur := by omega
          rw [show cur + 1 - 1 = (cur - 1) + 1 by omega]
          rw [ih (cur - 1) (by omega) (by omega)]
          have hmA : matchAt (d.take len) cs (cur + 1 - cs.length) = false := by
            rw [matchAt_eq_memcmpB hlen (by omega), ← hp]
            simpa using hcmp
          by_cases hx : cur - 1 + 1 < cs.length
          · rw [if_pos hx]
            have hp0 : cur + 1 - cs.length = 0 := by omega
            rw [hp0] at hmA
            rw [show cur + 1 - cs.length = 0 by omega, rScan, hmA]
            simp
          · rw [if_neg hx]
            have hps : cur + 1 - cs.length = (cur - cs.length) + 1 := by omega
            rw [hps] at hmA
            rw [hps, rScan, hmA]
            simp only [Bool.false_eq_true, if_false]
            rw [show cur - 1 + 1 - cs.length = cur - cs.length by omega]
    simp only [rfindLoop, Nat.add_sub_cancel]
    by_cases hfb : cs.getD (cs.length - 1) 0 ≠ d.getD cursor 0
    · rw [if_pos hfb]
      cases hmc : memrchar d (cs.getD (cs.length - 1) 0) cursor with
      | none =>
        show npos = if cursor + 1 < cs.length then npos
          else rScan (d.take len) cs (cursor + 1 - cs.length)
        by_cases hcs : cursor + 1 < cs.length
        · rw [if_pos hcs]
        · rw [if_neg hcs]
          refine (rScan_all_false _ ?_).symm
          intro p hp
          apply matchAt_false_last hn hlen
          rw [show p + cs.length - 1 = p + (cs.length - 1) by omega]
          exact memrchar_none_spec hmc (p + (cs.length - 1)) (by omega)
      | some cur =>
        obtain ⟨hq1, hq2, hq3⟩ := memrchar_some_spec hmc
        exact step cur hq1 hq2 hq3
    · rw [if_neg hfb]
      push_neg at hfb
      exact step cursor (le_refl _) hfb.symm (fun r hr1 hr2 => by omega)

/-- C6 counterexample: on the buffer "ab" with needle "a" and
`start_index = length = 2`, the claim demands the behaviour of
`start_index = length - 1` (which finds the occurrence at 0, the largest
position whose occurrence lies within bytes `[0, min(2, 1)]`), but
`ss_rfind` clamps only when `index > length`, so `index = length` falls
through the `index < length` test and returns `NPOS`. -/
theorem rfind_at_len_counterexample :
    ss_rfind ⟨2, 2, 0x102, [97, 98, 0]⟩ 2 [97] = npos ∧
    rfindSpec (content ⟨2, 2, 0x102, [97, 98, 0]⟩) [97] (min 2 (2 - 1)) = 0 ∧
    ss_rfind ⟨2, 2, 0x102, [97, 98, 0]⟩ 1 [97] = 0 ∧
    npos ≠ 0 := by decide

/-- C6 amended: for a non-empty buffer and non-empty needle, every
`start_index > length` behaves identically to `start_index = length - 1`;
`start_index = length` returns `NPOS`; and for `start_index < length`
`ss_rfind` returns the largest position at which the needle occurs
entirely within bytes `[0, start_index]`, or `NPOS` if there is none. -/
theorem ss_rfind_amended :
    (∀ (b : Buf) (idx : Nat) (cs : List Nat), b.len < idx →
        ss_rfind b idx cs = ss_rfind b (b.len - 1) cs) ∧
    (∀ (b : Buf) (cs : List Nat), 0 < b.len → 0 < cs.length →
        ss_rfind b b.len cs = npos) ∧
    (∀ (b : Buf) (idx : Nat) (cs : List Nat), WF b → idx < b.len →
        ss_rfind b idx cs = rfindSpec (content b) cs idx) := by
  refine ⟨?_, ?_, ?_⟩
  · intro b idx cs h
    simp only [ss_rfind]
    rw [if_pos h, if_neg (show ¬ b.len < b.len - 1 by omega)]
  · intro b cs h1 h2
    simp only [ss_rfind]
    rw [if_neg (show ¬ b.len < b.len by omega)]
    rw [if_neg (fun hcon => absurd hcon.2.2 (lt_irrefl _))]
  · intro b idx cs hwf hidx
    obtain ⟨hd, hl⟩ := hwf
    have hlen : b.len ≤ b.data.length := by omega
    have hL := take_len_length hlen
    simp only [ss_rfind]
    rw [if_neg (show ¬ b.len < idx by omega)]
    by_cases hcs : cs.length = 0
    · rw [if_neg (fun hcon => hcon.1 hcs)]
      unfold rfindSpec
      rw [if_pos (Or.inl hcs)]
    · rw [if_pos ⟨hcs, by omega, hidx⟩]
      rw [rfindLoop_eq hcs hlen (idx + 2) idx hidx (by omega)]
      unfold rfindSpec content
      rw [if_neg (show ¬(cs.length = 0 ∨ (List.take b.len b.data).length = 0)
        from by rw [hL]; omega)]

/-- C6 witness: the amended statements applied at the buffer "ab". -/
theorem ss_rfind_amended_witness :
    (⟨2, 2, 0x102, [97, 98, 0]⟩ : Buf).len < 3 ∧
    WF ⟨2, 2, 0x102, [97, 98, 0]⟩ ∧
    ss_rfind ⟨2, 2, 0x102, [97, 98, 0]⟩ 3 [97]
      = ss_rfind ⟨2, 2, 0x102, [97, 98, 0]⟩ 1 [97] ∧
    ss_rfind ⟨2, 2, 0x102, [97, 98, 0]⟩ 1 [97]
      = rfindSpec (content ⟨2, 2, 0x102, [97, 98, 0]⟩) [97] 1 :=
  ⟨by decide, by decide,
   ss_rfind_amended.1 ⟨2, 2, 0x102, [97, 98, 0]⟩ 3 [97] (by decide),
   ss_rfind_amended.2.2 ⟨2, 2, 0x102, [97, 98, 0]⟩ 1 [97] (by decide)
     (by decide)⟩

/-! ## Capacity and growth engine (`_ss_realloc`, `_ss_realloc_grow`,
`ss_new`, `ss_newfrom`, `ss_trunc`) -/

/-- `_ss_realloc(m, cap)`.  On the heap path, `realloc` preserves the
prefix and exposes fresh bytes (`junk`); the shrink case writes a zero
at the new capacity slot before the header capacity is updated.  On the
non-heap path a fresh block is allocated, `len + 1` bytes (content plus
sentinel) are copied, the remaining bytes are fresh, and the heap bit
and the norm type are set. -/
def _ss_realloc (junk : Nat) (b : Buf) (cap : Nat) : Buf :=
  if b.typ &&& heapBit ≠ 0 then
    let data := b.data.take (cap + 1) ++
      List.replicate ((cap + 1) - b.data.length) junk
    let data := if cap < b.cap then data.set cap 0 else data
    { b with cap := cap, data := data }
  else
    let data := (b.data.take (b.len + 1) ++
      List.replicate ((cap + 1) - (b.len + 1)) junk).take (cap + 1)
    { cap := cap, len := b.len,
      typ := (b.typ &&& growMask) ||| heapBit ||| typeNorm, data := data }

/-- `_ss_getgrow`. -/
def _ss_getgrow (typ : Nat) : Nat := typ >>> growShift

/-- The capacity computed by `_ss_realloc_grow` before it reallocates.
The sum `growcap + cap` is a `size_t` addition, hence the `% 2 ^ 64`;
the wrap test `(growcap + cap) < cap` and the `_ss_valid_cap` test both
inspect that wrapped sum. -/
def growCapOf (typ cap : Nat) : Nat :=
  if typ &&& growMask ≠ 0 then
    let growcap :=
      match _ss_getgrow typ with
      | 1 => cap / 4
      | 2 => cap / 2
      | 3 => cap
      | _ => 0
    let growcap := if maxRealloc < growcap then maxRealloc else growcap
    if (growcap + cap) % sizeMod < cap ∨ ¬ validCap ((growcap + cap) % sizeMod)
    then capMax
    else cap + growcap
  else cap

/-- `_ss_realloc_grow(m, cap)`. -/
def _ss_realloc_grow (junk : Nat) (b : Buf) (cap : Nat) : Buf :=
  _ss_realloc junk b (growCapOf b.typ cap)

/-- `ss_new(cap)`. -/
def ss_new (junk cap : Nat) : Buf :=
  if cap = 0 ∨ cap = npos then ss_empty
  else
    let cap := if ¬ validCap cap then capMax else cap
    { cap := cap, len := 0, typ := heapBit ||| typeNorm,
      data := 0 :: List.replicate cap junk }

/-- `ss_newfrom(cap, cs, len)`; call sites pass `len = cs.length`. -/
def ss_newfrom (junk : Nat) (cap : Nat) (cs : List Nat) (len : Nat) : Buf :=
  let cap := if len < cap then cap else len
  { cap := cap, len := len, typ := heapBit ||| typeNorm,
    data := (cs.take len ++ List.replicate (len - cs.length) 0)
      ++ 0 :: List.replicate (cap - len) junk }

/-- `ss_trunc(s, index)`. -/
def ss_trunc (b : Buf) (index : Nat) : Buf :=
  if index < b.len then { b with len := index, data := b.data.set index 0 }
  else b

/-! ## Claims C7 and C10 -/

/-- The capacity rule stated by claim C7: the policy-fraction extra,
clamped to `SS_MAX_REALLOC`; on wraparound of `cap + extra` or when it
exceeds the maximum valid capacity, exactly `_ss_cap_max()`; otherwise
`cap + extra`. -/
def growSpecOf (grow cap : Nat) : Nat :=
  let extra :=
    min (match grow with
         | 1 => cap / 4
         | 2 => cap / 2
         | 3 => cap
         | _ => 0) maxRealloc
  if sizeMod ≤ cap + extra ∨ capMax < cap + extra then capMax
  else cap + extra

/-- C7 counterexample: with the `Fit` policy (grow tag 0) and a
requested capacity exceeding `_ss_cap_max()`, the whole growth block is
skipped (`m->type & _SS_GROW_MASK` is zero), so the new capacity is the
unclamped request, not `_ss_cap_max()` as the claim requires. -/
theorem realloc_grow_fit_not_clamped :
    (_ss_realloc_grow 0xAA ⟨0, 0, 0x102, [0]⟩ (capMax + 1)).cap = capMax + 1 ∧
    capMax + 1 ≠ capMax := by
  constructor
  · rfl
  · decide

theorem growcap_le {typ cap : Nat} :
    (match _ss_getgrow typ with
     | 1 => cap / 4
     | 2 => cap / 2
     | 3 => cap
     | _ => 0) ≤ cap := by
  cases _ss_getgrow typ with
  | zero => exact Nat.zero_le _
  | succ g =>
    cases g with
    | zero => exact Nat.div_le_self _ _
    | succ g =>
      cases g with
      | zero => exact Nat.div_le_self _ _
      | succ g =>
        cases g with
        | zero => exact le_refl _
        | succ g => exact Nat.zero_le _

/-- C7 amended: for every buffer whose growth policy is not `Fit`
(nonzero grow bits), `_ss_realloc_grow` computes exactly the claim's
capacity rule; for the `Fit` policy the requested capacity passes
through unchanged and unclamped. -/
theorem realloc_grow_amended :
    (∀ (junk : Nat) (b : Buf) (cap : Nat), b.typ &&& growMask ≠ 0 →
        (_ss_realloc_grow junk b cap).cap = growSpecOf (_ss_getgrow b.typ) cap) ∧
    (∀ (junk : Nat) (b : Buf) (cap : Nat), b.typ &&& growMask = 0 →
        (_ss_realloc_grow junk b cap).cap = cap) := by
  have hcap : ∀ junk (b : Buf) c, (_ss_realloc junk b c).cap = c := by
    intro junk b c
    unfold _ss_realloc
    by_cases h : b.typ &&& heapBit ≠ 0
    · rw [if_pos h]
    · rw [if_neg h]
  refine ⟨?_, ?_⟩
  · intro junk b cap hg
    unfold _ss_realloc_grow
    rw [hcap]
    simp only [growCapOf, growSpecOf]
    rw [if_pos hg]
    have hsz : sizeMod = 18446744073709551616 := by norm_num [sizeMod]
    have hmr : maxRealloc = 1048576 := rfl
    set g0 := (match _ss_getgrow b.typ with
        | 1 => cap / 4 | 2 => cap / 2 | 3 => cap | _ => 0) with hg0
    have hclamp : (if maxRealloc < g0 then maxRealloc else g0)
        = min g0 maxRealloc := by
      rcases Nat.lt_or_ge maxRealloc g0 with h | h
      · rw [if_pos h, Nat.min_eq_right (by omega)]
      · rw [if_neg (by omega), Nat.min_eq_left (by omega)]
    rw [hclamp]
    set e := min g0 maxRealloc with he
    have heM : e ≤ maxRealloc := Nat.min_le_right _ _
    simp only [validCap, decide_eq_true_eq]
    rcases Nat.lt_or_ge (e + cap) sizeMod with hS | hS
    · rw [Nat.mod_eq_of_lt hS]
      by_cases hv : e + cap ≤ capMax
      · rw [if_neg (by omega), if_neg (by omega)]
      · rw [if_pos (by omega), if_pos (by omega)]
    · have hmod : (e + cap) % sizeMod ≤ e + cap - sizeMod :=
        calc (e + cap) % sizeMod = (e + cap - sizeMod) % sizeMod :=
              Nat.mod_eq_sub_mod hS
          _ ≤ e + cap - sizeMod := Nat.mod_le _ _
      rw [if_pos (Or.inl (by omega)), if_pos (Or.inl (by omega))]
  · intro junk b cap hg
    unfold _ss_realloc_grow
    rw [hcap]
    simp only [growCapOf]
    rw [if_neg (by simp [hg])]

/-- C7 witness: the amended capacity rule applied to a heap buffer with
the 100% growth policy and requested capacity 100. -/
theorem realloc_grow_amended_witness :
    ((⟨0, 0, 0x30102, [0]⟩ : Buf).typ &&& growMask ≠ 0) ∧
    (_ss_realloc_grow 0xAA ⟨0, 0, 0x30102, [0]⟩ 100).cap
      = growSpecOf (_ss_getgrow (⟨0, 0, 0x30102, [0]⟩ : Buf).typ) 100 :=
  ⟨by decide, realloc_grow_amended.1 0xAA ⟨0, 0, 0x30102, [0]⟩ 100 (by decide)⟩

/-- C10: `ss_new` returns the shared empty singleton (empty variant,
heap bit clear, capacity 0, length 0) for `cap = 0` and for
`cap = NPOS`; `NPOS` is not clamped to the maximum capacity but yields
the empty string, while any other capacity above `_ss_cap_max()` is
clamped to `_ss_cap_max()`, and valid capacities are allocated as
requested on the heap. -/
theorem ss_new_empty_singleton :
    (∀ junk, ss_new junk 0 = ss_empty) ∧
    (∀ junk, ss_new junk npos = ss_empty) ∧
    (ss_empty.typ &&& typeMask = typeEmpty ∧ ss_empty.typ &&& heapBit = 0 ∧
     ss_empty.cap = 0 ∧ ss_empty.len = 0) ∧
    capMax < npos ∧
    (∀ junk cap, cap ≠ 0 → cap ≠ npos → capMax < cap →
        (ss_new junk cap).cap = capMax ∧
        (ss_new junk cap).typ = (heapBit ||| typeNorm)) ∧
    (∀ junk cap, cap ≠ 0 → cap ≤ capMax →
        (ss_new junk cap).cap = cap ∧ (ss_new junk cap).len = 0 ∧
        (ss_new junk cap).typ = (heapBit ||| typeNorm)) := by
  refine ⟨?_, ?_, by decide, by decide, ?_, ?_⟩
  · intro junk
    simp only [ss_new]
    rw [if_pos (Or.inl trivial)]
  · intro junk
    simp only [ss_new]
    rw [if_pos (Or.inr trivial)]
  · intro junk cap h1 h2 h3
    have hv : validCap cap = false := by
      simp only [validCap, decide_eq_false_iff_not]
      omega
    simp only [ss_new, hv]
    rw [if_neg (fun hcon => hcon.elim h1 h2)]
    simp
  · intro junk cap h1 h2
    have hnp : cap ≠ npos := by
      have : capMax < npos := by decide
      omega
    have hv : validCap cap = true := by
      simp only [validCap, decide_eq_true_eq]
      omega
    simp only [ss_new, hv]
    rw [if_neg (fun hcon => hcon.elim h1 hnp)]
    simp

/-- C10 witness: the clamping and pass-through branches instantiated. -/
theorem ss_new_empty_singleton_witness :
    ((capMax + 1 ≠ 0 ∧ capMax + 1 ≠ npos ∧ capMax < capMax + 1) ∧
     (ss_new 0xAA (capMax + 1)).cap = capMax ∧
     (ss_new 0xAA (capMax + 1)).typ = (heapBit ||| typeNorm)) ∧
    ((7 : Nat) ≠ 0 ∧ (7 : Nat) ≤ capMax) ∧
    (ss_new 0xAA 7).cap = 7 ∧ (ss_new 0xAA 7).len = 0 ∧
    (ss_new 0xAA 7).typ = (heapBit ||| typeNorm) := by
  refine ⟨⟨⟨by decide, by decide, by decide⟩, ?_⟩, ⟨by decide, by decide⟩, ?_⟩
  · exact ss_new_empty_singleton.2.2.2.2.1 0xAA (capMax + 1) (by decide)
      (by decide) (by decide)
  · exact ss_new_empty_singleton.2.2.2.2.2 0xAA 7 (by decide) (by decide)

/-! ## Binary unpack (`_ss_unpackBE`, `ss_unpackBE`, `ssb_unpackBE`) -/

/-- A byte reinterpreted as the platform's signed `char`. -/
def sbyte (v : Nat) : Int := if v ≤ 0x7F then (v : Int) else (v : Int) - 256

/-- `unpacku16`. -/
def unpacku16 (buf : List Nat) (off : Nat) : Nat :=
  ((buf.getD off 0) <<< 8) ||| buf.getD (off + 1) 0

/-- `unpacki16`: restore the sign as in the C source. -/
def unpacki16 (buf : List Nat) (off : Nat) : Int :=
  let i2 := unpacku16 buf off
  if i2 ≤ 0x7FFF then (i2 : Int) else -1 - ((0xFFFF - i2 : Nat) : Int)

/-- `unpacku32`. -/
def unpacku32 (buf : List Nat) (off : Nat) : Nat :=
  ((buf.getD off 0) <<< 24) ||| ((buf.getD (off + 1) 0) <<< 16) |||
  ((buf.getD (off + 2) 0) <<< 8) ||| buf.getD (off + 3) 0

/-- `unpacki32`. -/
def unpacki32 (buf : List Nat) (off : Nat) : Int :=
  let i2 := unpacku32 buf off
  if i2 ≤ 0x7FFFFFFF then (i2 : Int) else -1 - ((0xFFFFFFFF - i2 : Nat) : Int)

/-- `unpacku64`. -/
def unpacku64 (buf : List Nat) (off : Nat) : Nat :=
  ((buf.getD off 0) <<< 56) ||| ((buf.getD (off + 1) 0) <<< 48) |||
  ((buf.getD (off + 2) 0) <<< 40) ||| ((buf.getD (off + 3) 0) <<< 32) |||
  ((buf.getD (off + 4) 0) <<< 24) ||| ((buf.getD (off + 5) 0) <<< 16) |||
  ((buf.getD (off + 6) 0) <<< 8) ||| buf.getD (off + 7) 0

/-- `unpacki64`. -/
def unpacki64 (buf : List Nat) (off : Nat) : Int :=
  let i2 := unpacku64 buf off
  if i2 ≤ 0x7FFFFFFFFFFFFFFF then (i2 : Int)
  else -1 - ((0xFFFFFFFFFFFFFFFF - i2 : Nat) : Int)

/-- The `for (; fmt[0]; fmt++) switch (fmt[0])` loop of `_ss_unpackBE`:
per token, add the token width to the running length, fail with `NPOS`
if it exceeds the input length, otherwise store the decoded value and
advance; an unrecognized character fails with `NPOS`. -/
def unpackLoop (blen : Nat) (buf : List Nat) :
    List Char → Nat → Nat → List Int → Nat × List Int
  | [], len, _, acc => (len, acc.reverse)
  | ch :: fmt, len, off, acc =>
    if ch = 'c' ∨ ch = 'b' then
      if blen < len + 1 then (npos, acc.reverse)
      else unpackLoop blen buf fmt (len + 1) (off + 1)
        (sbyte (buf.getD off 0) :: acc)
    else if ch = 'B' then
      if blen < len + 1 then (npos, acc.reverse)
      else unpackLoop blen buf fmt (len + 1) (off + 1)
        ((buf.getD off 0 : Int) :: acc)
    else if ch = '?' then
      if blen < len + 1 then (npos, acc.reverse)
      else unpackLoop blen buf fmt (len + 1) (off + 1)
        ((if buf.getD off 0 ≠ 0 then (1 : Int) else 0) :: acc)
    else if ch = 'h' then
      if blen < len + 2 then (npos, acc.reverse)
      else unpackLoop blen buf fmt (len + 2) (off + 2) (unpacki16 buf off :: acc)
    else if ch = 'H' then
      if blen < len + 2 then (npos, acc.reverse)
      else unpackLoop blen buf fmt (len + 2) (off + 2)
        ((unpacku16 buf off : Int) :: acc)
    else if ch = 'i' then
      if blen < len + 4 then (npos, acc.reverse)
      else unpackLoop blen buf fmt (len + 4) (off + 4) (unpacki32 buf off :: acc)
    else if ch = 'I' then
      if blen < len + 4 then (npos, acc.reverse)
      else unpackLoop blen buf fmt (len + 4) (off + 4)
        ((unpacku32 buf off : Int) :: acc)
    else if ch = 'q' then
      if blen < len + 8 then (npos, acc.reverse)
      else unpackLoop blen buf fmt (len + 8) (off + 8) (unpacki64 buf off :: acc)
    else if ch = 'Q' then
      if blen < len + 8 then (npos, acc.reverse)
      else unpackLoop blen buf fmt (len + 8) (off + 8)
        ((unpacku64 buf off : Int) :: acc)
    else (npos, acc.reverse)

/-- `_ss_unpackBE(blen, buf, fmt, argp)`; the decoded values stand for
the writes through the variadic out-pointers. -/
def _ss_unpackBE (blen : Nat) (buf : List Nat) (fmt : List Char) :
    Nat × List Int :=
  unpackLoop blen buf fmt 0 0 []

/-- `ss_unpackBE(s, fmt, ...)`: empty strings short-circuit to 0. -/
def ss_unpackBE (b : Buf) (fmt : List Char) : Nat × List Int :=
  if b.len ≠ 0 then _ss_unpackBE b.len b.data fmt else (0, [])

/-- `ssb_unpackBE(blen, buf, fmt, ...)`: `blen = 0` short-circuits to 0. -/
def ssb_unpackBE (blen : Nat) (buf : List Nat) (fmt : List Char) :
    Nat × List Int :=
  if blen ≠ 0 then _ss_unpackBE blen buf fmt else (0, [])

/-- The width of a recognized format token (claim side). -/
def tokenSize (ch : Char) : Option Nat :=
  if ch = 'c' ∨ ch = 'b' then some 1
  else if ch = 'B' then some 1
  else if ch = '?' then some 1
  else if ch = 'h' then some 2
  else if ch = 'H' then some 2
  else if ch = 'i' then some 4
  else if ch = 'I' then some 4
  else if ch = 'q' then some 8
  else if ch = 'Q' then some 8
  else none

/-- Total bytes demanded by a format string; `none` if it contains a
character outside the recognized token set. -/
def fmtDemand : List Char → Option Nat
  | [] => some 0
  | ch :: fmt =>
    match tokenSize ch, fmtDemand fmt with
    | some n, some m => some (n + m)
    | _, _ => none

theorem unpackLoop_npos {blen : Nat} {buf : List Nat} :
    ∀ fmt len off acc, len ≤ blen →
      (match fmtDemand fmt with
       | none => True
       | some d => blen < len + d) →
      (unpackLoop blen buf fmt len off acc).1 = npos := by
  intro fmt
  induction fmt with
  | nil =>
    intro len off acc hle hbad
    simp only [fmtDemand] at hbad
    omega
  | cons ch fmt ih =>
    intro len off acc hle hbad
    have hstep : ∀ n v, tokenSize ch = some n →
        (if blen < len + n then ((npos : Nat), acc.reverse)
         else unpackLoop blen buf fmt (len + n) (off + n) (v :: acc)).1
          = npos := by
      intro n v htok
      by_cases hchk : blen < len + n
      · rw [if_pos hchk]
      · rw [if_neg hchk]
        apply ih (len + n) (off + n) (v :: acc) (by omega)
        simp only [fmtDemand, htok] at hbad
        cases hfd : fmtDemand fmt with
        | none => trivial
        | some m =>
          rw [hfd] at hbad
          simp only at hbad
          omega
    simp only [unpackLoop]
    by_cases h1 : ch = 'c' ∨ ch = 'b'
    · rw [if_pos h1]
      exact hstep 1 _ (by simp only [tokenSize, if_pos h1])
    · rw [if_neg h1]
      by_cases h2 : ch = 'B'
      · rw [if_pos h2]
        exact hstep 1 _ (by simp only [tokenSize, if_neg h1, if_pos h2])
      · rw [if_neg h2]
        by_cases h3 : ch = '?'
        · rw [if_pos h3]
          exact hstep 1 _
            (by simp only [tokenSize, if_neg h1, if_neg h2, if_pos h3])
        · rw [if_neg h3]
          by_cases h4 : ch = 'h'
          · rw [if_pos h4]
            exact hstep 2 _ (by
              simp only [tokenSize, if_neg h1, if_neg h2, if_neg h3, if_pos h4])
          · rw [if_neg h4]
            by_cases h5 : ch = 'H'
            · rw [if_pos h5]
              exact hstep 2 _ (by
                simp only [tokenSize, if_neg h1, if_neg h2, if_neg h3,
                  if_neg h4, if_pos h5])
            · rw [if_neg h5]
              by_cases h6 : ch = 'i'
              · rw [if_pos h6]
                exact hstep 4 _ (by
                  simp only [tokenSize, if_neg h1, if_neg h2, if_neg h3,
                    if_neg h4, if_neg h5, if_pos h6])
              · rw [if_neg h6]
                by_cases h7 : ch = 'I'
                · rw [if_pos h7]
                  exact hstep 4 _ (by
                    simp only [tokenSize, if_neg h1, if_neg h2, if_neg h3,
                      if_neg h4, if_neg h5, if_neg h6, if_pos h7])
                · rw [if_neg h7]
                  by_cases h8 : ch = 'q'
                  · rw [if_pos h8]
                    exact hstep 8 _ (by
                      simp only [tokenSize, if_neg h1, if_neg h2, if_neg h3,
                        if_neg h4, if_neg h5, if_neg h6, if_neg h7, if_pos h8])
                  · rw [if_neg h8]
                    by_cases h9 : ch = 'Q'
                    · rw [if_pos h9]
                      exact hstep 8 _ (by
                        simp only [tokenSize, if_neg h1, if_neg h2, if_neg h3,
                          if_neg h4, if_neg h5, if_neg h6, if_neg h7,
                          if_neg h8, if_pos h9])
                    · rw [if_neg h9]

/-- C8 counterexample: with an empty input, both unpack entry points
short-circuit to 0 before the parsing loop runs, even though the format
demands bytes (or is malformed), where the claim requires `NPOS`. -/
theorem unpack_empty_input_returns_zero :
    (ssb_unpackBE 0 [] ['c']).1 = 0 ∧
    (ss_unpackBE ss_empty ['c']).1 = 0 ∧
    fmtDemand ['c'] = some 1 ∧ (0 : Nat) < 1 ∧ (0 : Nat) ≠ npos := by
  refine ⟨rfl, rfl, by decide, by decide, by decide⟩

/-- C8 amended: for a non-empty input, `ss_unpackBE` and `ssb_unpackBE`
return `NPOS` whenever the format demands more bytes than the input
contains or contains a character outside the recognized token set
`{c,b,B,?,h,H,i,I,q,Q}`; an empty input returns 0 regardless of the
format string. -/
theorem unpack_npos_amended :
    (∀ (blen : Nat) (buf : List Nat) (fmt : List Char), 0 < blen →
        (match fmtDemand fmt with
         | none => True
         | some d => blen < d) →
        (ssb_unpackBE blen buf fmt).1 = npos) ∧
    (∀ (b : Buf) (fmt : List Char), 0 < b.len →
        (match fmtDemand fmt with
         | none => True
         | some d => b.len < d) →
        (ss_unpackBE b fmt).1 = npos) ∧
    (∀ (buf : List Nat) (fmt : List Char), (ssb_unpackBE 0 buf fmt).1 = 0) ∧
    (∀ (b : Buf) (fmt : List Char), b.len = 0 → (ss_unpackBE b fmt).1 = 0) := by
  refine ⟨?_, ?_, ?_, ?_⟩
  · intro blen buf fmt hpos hbad
    unfold ssb_unpackBE _ss_unpackBE
    rw [if_pos (by omega)]
    apply unpackLoop_npos fmt 0 0 [] (by omega)
    cases hfd : fmtDemand fmt with
    | none => trivial
    | some d =>
      rw [hfd] at hbad
      simp only at hbad ⊢
      omega
  · intro b fmt hpos hbad
    unfold ss_unpackBE _ss_unpackBE
    rw [if_pos (by omega)]
    apply unpackLoop_npos fmt 0 0 [] (by omega)
    cases hfd : fmtDemand fmt with
    | none => trivial
    | some d =>
      rw [hfd] at hbad
      simp only at hbad ⊢
      omega
  · intro buf fmt
    rfl
  · intro b fmt h
    unfold ss_unpackBE
    rw [if_neg (by omega)]

/-- C8 witness: the amended statements applied to a one-byte input that
a `'q'` token (8 bytes) overruns, and to a malformed format. -/
theorem unpack_npos_amended_witness :
    ((0 : Nat) < 1 ∧ (ssb_unpackBE 1 [0] ['q']).1 = npos) ∧
    (0 : Nat) < 1 ∧ (ssb_unpackBE 1 [0] ['X']).1 = npos :=
  ⟨⟨by decide, unpack_npos_amended.1 1 [0] ['q'] (by decide)
      (by change (1 : Nat) < 8; decide)⟩,
   by decide, unpack_npos_amended.1 1 [0] ['X'] (by decide)
      (by change True; trivial)⟩

/-! ## Decimal concatenation (`ss_catint64`) -/

/-- The nonnegative branch of the digit do-while loop of `ss_catint64`:
emit `'0' + val % 10`, divide by 10, repeat while nonzero (least
significant digit first); C division truncates toward zero. -/
def digitsNonneg : Nat → Int → List Nat
  | 0, _ => []
  | fuel + 1, val =>
    (48 + (val.tmod 10).toNat) ::
      (if val.tdiv 10 = 0 then [] else digitsNonneg fuel (val.tdiv 10))

/-- The negative branch: `'0' + (-1) * (val % 10)` with C truncating
division, negating digit by digit rather than negating `val`. -/
def digitsNeg : Nat → Int → List Nat
  | 0, _ => []
  | fuel + 1, val =>
    (48 + (-(val.tmod 10)).toNat) ::
      (if val.tdiv 10 = 0 then [] else digitsNeg fuel (val.tdiv 10))

/-- `ss_catint64(s, val)`: build the scratch digits (least significant
first, a trailing `'-'` for negatives), grow if needed, update the
length, write the sentinel, then copy the scratch reversed.  The copy
cursor `ss` starts at `*s`, i.e. at index 0 of the string, exactly as
in the source. -/
def ss_catint64 (junk : Nat) (b : Buf) (val : Int) : Buf :=
  let bufRev := if 0 ≤ val then digitsNonneg 20 val
                else digitsNeg 20 val ++ [45]
  let len := bufRev.length
  let b := if b.cap < b.len + len then _ss_realloc_grow junk b (b.len + len)
           else b
  let newlen := b.len + len
  let data := b.data.set newlen 0
  let data := storeB data 0 bufRev.reverse
  { b with len := newlen, data := data }

/-- C9: `ss_catint64` renders the signed minimum exactly (the 20
characters "-9223372036854775808", digit-negated one at a time) when the
string is empty — but it does not append: the copy loop writes the
digits starting at index 0 of the string, so on the one-byte buffer "A"
with value 7 the result content is "7\x00" (length 2), not "A7". -/
theorem catint64_min_and_overwrite :
    content (ss_catint64 0xAA ss_empty (-9223372036854775808))
      = [45, 57, 50, 50, 51, 51, 55, 50, 48, 51, 54, 56, 53, 52, 55, 55,
         53, 56, 48, 56] ∧
    (ss_catint64 0xAA ss_empty (-9223372036854775808)).len = 20 ∧
    content (ss_catint64 0xAA ⟨1, 1, 0x102, [65, 0]⟩ 7) = [55, 0] ∧
    [55, 0] ≠ [65, 55] := by decide

/-! ## `ss_remove` and `ss_replace` -/

/-- The deferred-compaction loop of `ss_remove`.  State: the byte
region, the scan cursor, `searchlen = len - cursor`, the running new
length, the pending write position `toI` and the pending source
position `from`. -/
def removeLoop (cs : List Nat) (len : Nat) :
    Nat → List Nat → Nat → Nat → Nat → Option Nat → Nat →
    List Nat × Option Nat × Nat × Nat
  | 0, data, _, _, newlen, toI, fromIdx => (data, toI, fromIdx, newlen)
  | fuel + 1, data, cursor, searchlen, newlen, toI, fromIdx =>
    match
      (if cs.getD 0 0 ≠ data.getD cursor 0
       then memchar data (cs.getD 0 0) cursor searchlen
       else some cursor) with
    | none => (data, toI, fromIdx, newlen)
    | some cur =>
      let slen := len - cur
      if slen < cs.length then (data, toI, fromIdx, newlen)
      else if memcmpB data cur cs then
        let newlen := newlen - cs.length
        let dt : List Nat × Nat :=
          match toI with
          | some t =>
            let movelen := cur - fromIdx
            if movelen ≠ 0 then (memmoveB data t fromIdx movelen, t + movelen)
            else (data, t)
          | none => (data, cur)
        let cur2 := cur + cs.length
        let slen2 := slen - cs.length
        if slen2 < cs.length then (dt.1, some dt.2, cur2, newlen)
        else removeLoop cs len fuel dt.1 cur2 slen2 newlen (some dt.2) cur2
      else removeLoop cs len fuel data (cur + 1) (slen - 1) newlen toI fromIdx

/-- `ss_remove(s, index, cs, len)`. -/
def ss_remove (b : Buf) (index : Nat) (cs : List Nat) : Buf :=
  if cs.length ≠ 0 ∧ b.len ≠ 0 ∧ index < b.len ∧ cs.length ≤ b.len - index
  then
    let r := removeLoop cs b.len (b.len + 1) b.data index (b.len - index)
      b.len none 0
    let data :=
      match r.2.1 with
      | some t => memmoveB r.1 t r.2.2.1 ((b.len - r.2.2.1) + 1)
      | none => r.1
    { b with data := data, len := r.2.2.2 }
  else b

/-- The in-place shrink loop of `ss_replace` (`wlen ≤ rlen`).  The C
loop body has no cursor advance after a failed full comparison: when a
position matches on the first byte but not on the whole needle, the
loop state repeats and the C spins forever; that divergence is modelled
as `none`. -/
def replShrinkLoop (rep wit : List Nat) (len : Nat) :
    Nat → List Nat → Nat → Nat → Nat → Option Nat → Nat →
    Option (List Nat × Option Nat × Nat × Nat)
  | 0, _, _, _, _, _, _ => none
  | fuel + 1, data, cursor, searchlen, newlen, toI, fromIdx =>
    match
      (if rep.getD 0 0 ≠ data.getD cursor 0
       then memchar data (rep.getD 0 0) cursor searchlen
       else some cursor) with
    | none => some (data, toI, fromIdx, newlen)
    | some cur =>
      let slen := len - cur
      if slen < rep.length then some (data, toI, fromIdx, newlen)
      else if memcmpB data cur rep then
        let newlen := newlen - (rep.length - wit.length)
        let dt : List Nat × Nat :=
          match toI with
          | some t =>
            let movelen := cur - fromIdx
            if movelen ≠ 0 ∧ t ≠ fromIdx
            then (memmoveB data t fromIdx movelen, t + movelen)
            else (data, t)
          | none => (data, cur)
        let data := storeB dt.1 dt.2 wit
        let to2 := dt.2 + wit.length
        let cur2 := cur + rep.length
        let slen2 := slen - rep.length
        if slen2 < rep.length then some (data, some to2, cur2, newlen)
        else replShrinkLoop rep wit len fuel data cur2 slen2 newlen
          (some to2) cur2
      else none

/-- The inner scan of the expand path of `ss_replace`.  On a mismatch
the C increments the cursor and then searches from `cursor + 1`,
skipping a position; when `memchr` finds nothing the C dereferences the
`NULL` cursor (the `NULL` check is deliberately omitted, trusting the
precomputed count) — modelled as `none`. -/
def replScan (rep : List Nat) (len : Nat) :
    Nat → List Nat → Nat → Option Nat
  | 0, _, _ => none
  | fuel + 1, data, cursor =>
    if rep.getD 0 0 ≠ data.getD cursor 0 then
      let cursor := cursor + 1
      let searchlen := len - cursor
      match memchar data (rep.getD 0 0) (cursor + 1) searchlen with
      | none => none
      | some q =>
        if memcmpB data q rep then some q
        else replScan rep len fuel data (q + 1)
    else if memcmpB data cursor rep then some cursor
    else replScan rep len fuel data (cursor + 1)

/-- The `while (--count)` rewrite loop of the expand path. -/
def replOuter (rep wit : List Nat) (len : Nat) :
    Nat → List Nat → Nat → Nat → Nat → Option (List Nat)
  | 0, data, _, _, _ => some data
  | fuel + 1, data, count, toI, fromIdx =>
    if count - 1 = 0 then some data
    else
      match replScan rep len (len + 2) data fromIdx with
      | none => none
      | some cursor =>
        let movelen := cursor - fromIdx
        let data := if movelen ≠ 0 then memmoveB data toI fromIdx movelen
                    else data
        let toI := toI + movelen
        let data := storeB data toI wit
        let toI := toI + wit.length
        replOuter rep wit len fuel data (count - 1) toI (cursor + rep.length)

/-- `ss_replace(s, index, replace, rlen, with, wlen)`.  `none` models
the C crashing (expand path dereferencing `NULL`) or spinning forever
(shrink path never advancing after a failed compare). -/
def ss_replace (junk : Nat) (b : Buf) (index : Nat) (rep wit : List Nat) :
    Option Buf :=
  if rep.length = 0 then some b
  else if wit.length = 0 then some (ss_remove b index rep)
  else if b.len ≤ index then some b
  else if wit.length ≤ rep.length then
    match replShrinkLoop rep wit b.len (b.len + 1) b.data index
      (b.len - index) b.len none 0 with
    | none => none
    | some r =>
      let data :=
        match r.2.1 with
        | some t =>
          if t ≠ r.2.2.1 then memmoveB r.1 t r.2.2.1 ((b.len - r.2.2.1) + 1)
          else r.1
        | none => r.1
      some { b with data := data, len := r.2.2.2 }
  else
    let i := ss_find b index rep
    if i = npos then some b
    else
      let diff := wit.length - rep.length
      let count := ss_count b (i + rep.length) rep + 1
      let cap := diff * count + b.len
      let b2 := if b.cap < cap then _ss_realloc_grow junk b cap else b
      let movelen := (b2.len - (i + rep.length)) + 1
      let fromIdx := i + rep.length + diff * count
      let data := memmoveB b2.data fromIdx (i + rep.length) movelen
      let data := storeB data i wit
      let toI := i + wit.length
      let len2 := b2.len + diff * count
      match replOuter rep wit len2 (count + 1) data count toI fromIdx with
      | none => none
      | some data => some { b2 with data := data, len := len2 }

/-- C3: the expand path on the spec's own example works — replacing
every "abc" by "long" in "abcabcabcabc" yields exactly
"longlonglonglong", with one reallocation to exactly
`len + (repl_len - needle_len) * match_count = 12 + 1 * 4 = 16` — but
the claim's "rewrites every non-overlapping match" fails in general: on
"ZabYab" with needle "ab" and replacement "xyz", the rewrite loop's
mismatch branch advances the cursor and then searches from
`cursor + 1`, skipping the position where the second (shifted) match
starts; `memchr` then returns `NULL` and the code dereferences it
(the `NULL` check is deliberately omitted), modelled as `none`. -/
theorem replace_expand_exhibit :
    (ss_replace 0xAA (ss_newfrom 0xBB 0
        [97, 98, 99, 97, 98, 99, 97, 98, 99, 97, 98, 99] 12) 0
        [97, 98, 99] [108, 111, 110, 103]).map
      (fun r => (content r, r.len, r.cap))
      = some ([108, 111, 110, 103, 108, 111, 110, 103, 108, 111, 110, 103,
               108, 111, 110, 103], 16, 16) ∧
    ss_count (ss_newfrom 0xBB 0
        [97, 98, 99, 97, 98, 99, 97, 98, 99, 97, 98, 99] 12) 3
      [97, 98, 99] + 1 = 4 ∧
    12 + (4 - 3) * 4 = 16 ∧
    ss_replace 0xAA (ss_newfrom 0xBB 0 [90, 97, 98, 89, 97, 98] 6) 0
      [97, 98] [120, 121, 122] = none := by decide

/-! ## Claim C1: the sentinel invariant, and `ssc_unesc` -/

/-- `isdigit` on a byte value. -/
def isdigit (c : Nat) : Bool := 48 ≤ c && c ≤ 57

/-- `isxdigit` on a byte value. -/
def isxdigit (c : Nat) : Bool :=
  isdigit c || (65 ≤ c && c ≤ 70) || (97 ≤ c && c ≤ 102)

/-- `_ss_tohexval`: table lookup mapping a hex digit to its value and
every other byte to 0. -/
def _ss_tohexval (c : Nat) : Nat :=
  if 48 ≤ c && c ≤ 57 then c - 48
  else if 65 ≤ c && c ≤ 70 then c - 55
  else if 97 ≤ c && c ≤ 102 then c - 87
  else 0

/-- The bounded hex-digit loops of the `u` and `U` cases of `ssc_unesc`
(`for (i = 0; i < 3; ...)` resp. `i < 7`): while the byte at `p` is a
hex digit, fold it into the `unicode_t` accumulator and advance `p` and
`removed`.  Arguments: iterations left, `p`, `c`, `removed`; returns the
final `(p, c, removed)`. -/
def hexLoop (d : List Nat) : Nat → Nat → Nat → Nat → Nat × Nat × Nat
  | 0, p, c, removed => (p, c, removed)
  | i + 1, p, c, removed =>
    if isxdigit (d.getD p 0) then
      hexLoop d i (p + 1)
        (((c <<< 4) % 4294967296) ^^^ _ss_tohexval (d.getD p 0)) (removed + 1)
    else (p, c, removed)

/-- The `switch (ctest)` of `ssc_unesc`, entered with the write cursor
at `toI` and the backslash at index `pEsc`; on entry the code has
already advanced `p` past the escape character (`p = pEsc + 2`,
`from = p`, `written = 1`, `removed = 2`).  Returns the updated data and
the final `(p, from, written, removed)`.  The octal/default arm first
moves `p` back onto the escape character (`--p`). -/
def unescEsc (d : List Nat) (toI pEsc : Nat) : List Nat × Nat × Nat × Nat × Nat :=
  let ctest := d.getD (pEsc + 1) 0
  let p := pEsc + 2
  if ctest == 0x61 then (storeB d toI [0x07], p, p, 1, 2)
  else if ctest == 0x62 then (storeB d toI [0x08], p, p, 1, 2)
  else if ctest == 0x65 then (storeB d toI [0x1B], p, p, 1, 2)
  else if ctest == 0x66 then (storeB d toI [0x0C], p, p, 1, 2)
  else if ctest == 0x6E then (storeB d toI [0x0A], p, p, 1, 2)
  else if ctest == 0x72 then (storeB d toI [0x0D], p, p, 1, 2)
  else if ctest == 0x74 then (storeB d toI [0x09], p, p, 1, 2)
  else if ctest == 0x76 then (storeB d toI [0x0B], p, p, 1, 2)
  else if ctest == 0x5C then (storeB d toI [0x5C], p, p, 1, 2)
  else if ctest == 0x27 then (storeB d toI [0x27], p, p, 1, 2)
  else if ctest == 0x22 then (storeB d toI [0x22], p, p, 1, 2)
  else if ctest == 0x3F then (storeB d toI [0x3F], p, p, 1, 2)
  else if ctest == 0x78 then
    if isxdigit (d.getD p 0) then
      let c := _ss_tohexval (d.getD p 0)
      let p := p + 1
      if isxdigit (d.getD p 0) then
        let c := ((c <<< 4) % 256) ^^^ _ss_tohexval (d.getD p 0)
        (storeB d toI [c], p + 1, p + 1, 1, 4)
      else (storeB d toI [c], p, p, 1, 3)
    else (d, p, p - 2, 0, 0)
  else if ctest == 0x75 then
    if isxdigit (d.getD p 0) then
      let st := hexLoop d 3 (p + 1) (_ss_tohexval (d.getD p 0)) 3
      let enc := ssu8_cptoseq st.2.1
      (storeB d toI enc.2, st.1, st.1, enc.1, st.2.2)
    else (d, p, p - 2, 0, 0)
  else if ctest == 0x55 then
    if isxdigit (d.getD p 0) then
      let st := hexLoop d 7 (p + 1) (_ss_tohexval (d.getD p 0)) 3
      let enc := ssu8_cptoseq st.2.1
      (storeB d toI enc.2, st.1, st.1, enc.1, st.2.2)
    else (d, p, p - 2, 0, 0)
  else
    let q := pEsc + 1
    if isdigit (d.getD q 0) && d.getD q 0 < 56 then
      let c := _ss_tohexval (d.getD q 0)
      let q := q + 1
      if isdigit (d.getD q 0) && d.getD q 0 < 56 then
        let c := ((c <<< 3) % 256) ^^^ _ss_tohexval (d.getD q 0)
        let q := q + 1
        if isdigit (d.getD q 0) && d.getD q 0 < 56 && d.getD (q - 2) 0 < 52 then
          let c := ((c <<< 3) % 256) ^^^ _ss_tohexval (d.getD q 0)
          (storeB d toI [c], q + 1, q + 1, 1, 4)
        else (storeB d toI [c], q, q, 1, 3)
      else (storeB d toI [c], q, q, 1, 2)
    else (d, q + 1, q + 1, 2, 2)

/-- The `while (*p)` loop of `ssc_unesc`.  State: data, scan cursor `p`,
write cursor `toI` (`NULL` before the first escape), `from`, `newlen`.
Each iteration first skips to the next backslash (exiting at the
terminator), then flushes the pending bytes `[from, p)` down to the
write cursor, then consumes one escape sequence.  Returns the final
`(data, toI, from, newlen)`. -/
def unescLoop (d : List Nat) (p : Nat) (toI : Option Nat) (fromIdx newlen : Nat) :
    Nat → List Nat × Option Nat × Nat × Nat
  | 0 => (d, toI, fromIdx, newlen)
  | fuel + 1 =>
    if d.getD p 0 == 0 then (d, toI, fromIdx, newlen)
    else
      match (if d.getD p 0 == 0x5C then some p
             else strchrNul d 0x5C (p + 1) (d.length + 1)) with
      | none => (d, toI, fromIdx, newlen)
      | some pb =>
        let flush : List Nat × Nat :=
          match toI with
          | none => (d, pb)
          | some t =>
            if t ≠ fromIdx then
              let movelen := pb - fromIdx
              if movelen ≠ 0 then (memmoveB d t fromIdx movelen, t + movelen)
              else (d, t)
            else (d, pb)
        let step := unescEsc flush.1 flush.2 pb
        unescLoop step.1 step.2.1 (some (flush.2 + step.2.2.2.1)) step.2.2.1
          ((newlen + sizeMod + step.2.2.2.1 - step.2.2.2.2) % sizeMod) fuel

/-- `ssc_unesc(s)`: run the unescape loop, then move the tail
`[from, len]` (sentinel included, `(s + m->len) - from + 1` bytes in
`size_t` arithmetic) down to the write cursor, then store the new
length. -/
def ssc_unesc (b : Buf) : Buf :=
  let r := unescLoop b.data 0 none 0 b.len (b.data.length + 2)
  let d :=
    match r.2.1 with
    | none => r.1
    | some t =>
      if t ≠ r.2.2.1 then
        memmoveB r.1 t r.2.2.1 ((b.len + 1 + sizeMod - r.2.2.1) % sizeMod)
      else r.1
  { b with len := r.2.2.2, data := d }

/-- C1: the sentinel invariant is not preserved by every mutating
operation.  `ssc_unesc` on the well-formed buffer with content
`"\nab\"` (capacity 8, length 5, bytes `[0x5C, 0x6E, 0x61, 0x62, 0x5C]`,
sentinel in place, with bytes `0x6E` and `0x00` left over in the unused
tail) consumes the sentinel as escape input: on meeting the trailing
lone backslash the scanner reads the next byte (`ctest = *p` after
`++p`) without checking for the terminator, treats the sentinel as the
escape character and keeps scanning past it, so the call completes with
length 4 but byte `0x5C` at index 4 — `bytes[length] != 0`.  Every read
and write stays inside the allocation and the final tail move has
size 0, so this is fully defined behaviour.  On inputs whose escape
sequences stay inside the string the sentinel is preserved, e.g. on
`"\\text to move\\"`. -/
theorem unesc_breaks_sentinel :
    (WF (ss_trunc (ss_newfrom 0xAA 8 [0x5C, 0x6E, 0x61, 0x62, 0x5C, 0, 0x6E] 7) 5) ∧
      content (ss_trunc (ss_newfrom 0xAA 8 [0x5C, 0x6E, 0x61, 0x62, 0x5C, 0, 0x6E] 7) 5)
        = [0x5C, 0x6E, 0x61, 0x62, 0x5C] ∧
      (ss_trunc (ss_newfrom 0xAA 8 [0x5C, 0x6E, 0x61, 0x62, 0x5C, 0, 0x6E] 7) 5).data.getD
        (ss_trunc (ss_newfrom 0xAA 8 [0x5C, 0x6E, 0x61, 0x62, 0x5C, 0, 0x6E] 7) 5).len 0 = 0 ∧
      (ssc_unesc (ss_trunc (ss_newfrom 0xAA 8 [0x5C, 0x6E, 0x61, 0x62, 0x5C, 0, 0x6E] 7) 5)).len
        = 4 ∧
      (ssc_unesc (ss_trunc (ss_newfrom 0xAA 8 [0x5C, 0x6E, 0x61, 0x62, 0x5C, 0, 0x6E] 7) 5)).data.getD
        4 0 = 0x5C) ∧
    (ssc_unesc (ss_newfrom 0 0 [92, 92, 116, 101, 120, 116, 32, 116, 111, 32,
        109, 111, 118, 101, 92, 92] 16)).data.getD
      (ssc_unesc (ss_newfrom 0 0 [92, 92, 116, 101, 120, 116, 32, 116, 111, 32,
        109, 111, 118, 101, 92, 92] 16)).len 0 = 0 := by decide

end SS
